import Mathlib

/-!
Verification of the Downloader module dependency resolution and
installation-transaction engine (redbot/cogs/downloader/downloader.py).

The data model and the operations are shallowly embedded from the source:
each Lean definition mirrors one Python function or loop of the source
file.  External collaborators only declared at their interface boundary
(git plumbing, the package installer, the filesystem) are represented as
oracle fields on the embedded `Repo` structure and as explicit state
parameters, exactly as the source treats them as opaque awaitables.
-/

namespace Downloader

/-- Kinds of installable modules (installable.py, `InstallableType`).
Modelled from the spec: installable.py is not in the source tree; the spec
(§3) gives `kind: enum{MODULE, SHARED_LIBRARY}` plus an "other" kind for
which `_save_to_installed` / `_remove_from_installed` fall through. -/
inductive InstallableType
  | UNKNOWN
  | COG
  | SHARED_LIBRARY
deriving DecidableEq, Repr

/-- One installable module / installed record.  Mirrors the union of the
fields downloader.py reads on `Installable` and `InstalledModule`
(installable.py itself is not in the source tree; fields and defaults are
modelled from the spec §3).  Version tuples are ordered lists of naturals
compared lexicographically, as the spec's "ordered version tuples".
`copy_ok` is the oracle for the filesystem copy performed by the
awaitable `cog.copy_to(...)`: `true` means the copy succeeds. -/
structure Installable where
  name : String
  repo_name : String
  commit : String := ""
  itype : InstallableType := InstallableType.COG
  disabled : Bool := false
  hidden : Bool := false
  pinned : Bool := false
  min_python_version : List Nat := []
  min_bot_version : List Nat := []
  max_bot_version : List Nat := []
  requirements : List String := []
  copy_ok : Bool := true
deriving DecidableEq, Repr

/-- A git-backed repository as downloader.py uses it.  `commit` is the
commit recorded at rest; the currently *checked-out* ref is threaded as
explicit state where checkout matters (see `RefState`).  The git plumbing
(`is_ancestor`, `get_modified_modules`, `get_last_module_occurrence`) and
the package installer (`install_raw_requirements`) are oracle functions,
since repo_manager.py treats them as opaque subprocess calls. -/
structure Repo where
  name : String
  commit : String
  available_libraries : List Installable := []
  available_cogs : List Installable := []
  is_ancestor : String → String → Bool := fun _ _ => false
  get_modified_modules : String → String → List Installable := fun _ _ => []
  get_last_module_occurrence : String → Option Installable := fun _ => none
  install_raw_requirements : List String → Bool := fun _ => true

/-- Modelled from the spec: installable.py (which defines equality and
hashing of modules) is not in the source tree.  Two modules are the same
module when repository name, module name and kind agree — spec §3: "Two
InstalledRecords may never share (repo_name, name, kind)".  The commit
deliberately does not participate: the source compares a module installed
at an old commit with its occurrence at the current commit via `==`. -/
def Installable.sameModule (a b : Installable) : Bool :=
  a.repo_name == b.repo_name && a.name == b.name && a.itype == b.itype

/-- The identity key underlying `sameModule`. -/
def Installable.key (m : Installable) : String × String × InstallableType :=
  (m.repo_name, m.name, m.itype)

/-- Python `set.add` on modules: insert unless an equal module is present
(the set keeps the already-present representative). -/
def insertModule (s : List Installable) (x : Installable) : List Installable :=
  if s.any (fun y => y.sameModule x) then s else s ++ [x]

/-- Python `list.index` followed by indexing, wrapped in try/except
(`installed_libraries.index(lib)`, `modified.index(module)`): the first
member equal to `x`, if any. -/
def findSame (s : List Installable) (x : Installable) : Option Installable :=
  s.find? (fun y => y.sameModule x)

/-- Resolution of a record's `repo` attribute against the repo manager's
known repositories (spec §3: every record conceptually references a live
Repository by name; a missing repository resolves to None). -/
def findRepo (rm : List Repo) (n : String) : Option Repo :=
  rm.find? (fun r => r.name == n)

/-- Insertion into the Python set `repos = {cog.repo for cog in cogs ...}`:
repositories are deduplicated (by name, which identifies them). -/
def addRepo (acc : List Repo) (r : Repo) : List Repo :=
  if acc.any (fun x => x.name == r.name) then acc else acc ++ [r]

/-- `repos = {cog.repo for cog in cogs if cog.repo is not None}`
(downloader.py line 262). -/
def resolveRepos (rm : List Repo) (cogs : List Installable) : List Repo :=
  cogs.foldl
    (fun acc c =>
      match findRepo rm c.repo_name with
      | some r => addRepo acc r
      | none => acc)
    []

/-- Body of the inner loop of the first phase of `_available_updates`
(lines 272-278): one available shared library either finds its installed
counterpart (which goes into `modules`, the may-need-update set) or is
marked for update.  The accumulator is `(modules, libraries_to_update)`. -/
def libsStep (installed_libraries : List Installable)
    (acc : List Installable × List Installable) (lib : Installable) :
    List Installable × List Installable :=
  match findSame installed_libraries lib with
  | some l => (insertModule acc.1 l, acc.2)
  | none => (acc.1, insertModule acc.2 lib)

/-- First phase of `_available_updates` (lines 271-278): the loop over
each relevant repo's available shared libraries. -/
def libsPhase (repos : List Repo) (installed_libraries : List Installable) :
    List Installable × List Installable :=
  repos.foldl
    (fun acc repo => repo.available_libraries.foldl (libsStep installed_libraries) acc)
    ([], [])

/-- Body of the second-phase loop of `_available_updates` (lines
280-289): a record whose repo was removed is skipped; a record with
commit data goes into `modules`; a record without commit data
(back-compat, GH-2571) is marked for update via the repo's last
occurrence of that module name, unless disabled.  The accumulator is
`(modules, cogs_to_update)`. -/
def cogsStep (rm : List Repo) (acc : List Installable × List Installable)
    (cog : Installable) : List Installable × List Installable :=
  match findRepo rm cog.repo_name with
  | none => acc
  | some repo =>
    if cog.commit ≠ "" then (insertModule acc.1 cog, acc.2)
    else
      match repo.get_last_module_occurrence cog.name with
      | some last =>
        if !last.disabled then (acc.1, insertModule acc.2 last) else acc
      | none => acc

/-- Second phase of `_available_updates` (lines 279-289): the loop over
the installed records under check. -/
def cogsPhase (rm : List Repo) (cogs : List Installable)
    (acc : List Installable × List Installable) :
    List Installable × List Installable :=
  cogs.foldl (cogsStep rm) acc

/-- One entry of the `hashes` dict of `_available_updates` (line 292):
the dict key is the `(repo, old_commit)` pair, the value is the set of
modules sharing that pair. -/
structure HashGroup where
  repo_name : String
  old_commit : String
  repo : Repo
  mods : List Installable

def HashGroup.gkey (g : HashGroup) : String × String :=
  (g.repo_name, g.old_commit)

/-- `hashes[(module.repo, module.commit)].add(module)`: extend the
existing group for that key, or append a fresh group. -/
def addToHashes (hs : List HashGroup) (r : Repo) (old : String)
    (m : Installable) : List HashGroup :=
  if hs.any (fun g => g.repo_name == r.name && g.old_commit == old) then
    hs.map (fun g =>
      if g.repo_name == r.name && g.old_commit == old then
        { g with mods := insertModule g.mods m }
      else g)
  else hs ++ [⟨r.name, old, r, [m]⟩]

/-- Body of the grouping loop (lines 293-298): a module is grouped under
`(repo, old_commit)` when its commit differs from the repo's current
commit and is its ancestor.  The source asserts `module.repo` is not
None here (the `cast` on line 294); a record whose repo does not resolve
is unreachable for the well-formed inputs the source is called with. -/
def hashStep (rm : List Repo) (hs : List HashGroup) (m : Installable) :
    List HashGroup :=
  match findRepo rm m.repo_name with
  | none => hs
  | some r =>
    if r.commit != m.commit && r.is_ancestor m.commit r.commit then
      addToHashes hs r m.commit m
    else hs

/-- Third phase of `_available_updates` (lines 292-298): group the
may-need-update modules by `(repo, old_commit)`. -/
def buildHashes (rm : List Repo) (modules : List Installable) : List HashGroup :=
  modules.foldl (hashStep rm) []

/-- The diff a group's update check consults:
`repo.get_modified_modules(old_hash, repo.commit)` (line 302). -/
def HashGroup.modified (g : HashGroup) : List Installable :=
  g.repo.get_modified_modules g.old_commit g.repo.commit

/-- Result of `_available_updates`, with the bookkeeping the source
performs alongside the two returned tuples: `update_commits` is the list
handed to `_save_to_installed` (fast-forwarded records), `diff_calls`
records one entry per issued `get_modified_modules` query. -/
structure ResolveResult where
  cogs_to_update : List Installable
  libraries_to_update : List Installable
  update_commits : List Installable
  diff_calls : List (String × String)

/-- Body of the per-module classification inside the diff loop (lines
303-316): a member absent from the group's diff is fast-forwarded to the
repo's current commit (queued for `_save_to_installed`); a present one
is classified by kind, dropping disabled cogs. -/
def diffStep (g : HashGroup) (acc : ResolveResult) (m : Installable) :
    ResolveResult :=
  match findSame g.modified m with
  | none =>
    { acc with
      update_commits := acc.update_commits ++ [{ m with commit := g.repo.commit }] }
  | some mm =>
    if mm.itype == InstallableType.COG then
      if !mm.disabled then
        { acc with cogs_to_update := insertModule acc.cogs_to_update mm }
      else acc
    else if mm.itype == InstallableType.SHARED_LIBRARY then
      { acc with libraries_to_update := insertModule acc.libraries_to_update mm }
    else acc

/-- One iteration of the diff loop (lines 301-316): issue the group's
single diff query and classify every member. -/
def diffGroup (acc : ResolveResult) (g : HashGroup) : ResolveResult :=
  let acc' := g.mods.foldl (diffStep g) acc
  { acc' with diff_calls := acc'.diff_calls ++ [g.gkey] }

/-- Fourth phase of `_available_updates` (lines 300-317): one diff query
per group; a group member absent from the diff is fast-forwarded, a
present one is classified by kind (disabled cogs are dropped). -/
def diffPhase (ctu ltu : List Installable) (hs : List HashGroup) :
    ResolveResult :=
  hs.foldl diffGroup ⟨ctu, ltu, [], []⟩

/-- `_available_updates` (downloader.py lines 245-320).  `rm` is the repo
manager's repository list, `cogs` the installed records to check, and
`installed_libraries` the persisted shared-library records the method
fetches on entry. -/
def availableUpdates (rm : List Repo) (cogs installed_libraries : List Installable) :
    ResolveResult :=
  let repos := resolveRepos rm cogs
  let acc1 := libsPhase repos installed_libraries
  let acc2 := cogsPhase rm cogs (acc1.1, [])
  let hs := buildHashes rm acc2.1
  diffPhase acc2.2 acc1.2 hs

/-- Well-formedness of one `hashes` entry, as established by the grouping
loop: the stored repo is the resolution of the stored repo name, and
every member comes from the may-need-update set, is recorded at the
group's old commit, and passed the current-commit and ancestry guards. -/
def HashGroup.wf (rm : List Repo) (ms : List Installable) (g : HashGroup) : Prop :=
  g.repo.name = g.repo_name ∧ findRepo rm g.repo_name = some g.repo ∧
  (∃ x, x ∈ g.mods) ∧
  ∀ x ∈ g.mods, x ∈ ms ∧ x.commit = g.old_commit ∧ x.repo_name = g.repo_name ∧
    g.repo.commit ≠ x.commit ∧ g.repo.is_ancestor x.commit g.repo.commit = true

/-- `_save_to_installed(update_commits)` as observed by a later read of
the persisted map: a record overwritten by a queued fast-forwarded
record of the same (repo name, module name, kind) key now carries the
new commit; other records are unchanged. -/
def ffwd (uc : List Installable) (m : Installable) : Installable :=
  match findSame uc m with
  | some u => { m with commit := u.commit }
  | none => m

/-! ### The version filter -/

/-- Python tuple comparison on version tuples, as used on
`min_python_version`, `min_bot_version`, `max_bot_version` and the two
host versions: lexicographic, with a strict prefix comparing smaller. -/
def verLt : List Nat → List Nat → Bool
  | [], [] => false
  | [], _ :: _ => true
  | _ :: _, [] => false
  | a :: as, b :: bs =>
    if a < b then true else if b < a then false else verLt as bs

/-- Python `x > y` on version tuples. -/
def verGt (a b : List Nat) : Bool :=
  verLt b a

/-- `_filter_incorrect_cogs` (downloader.py lines 1237-1291), with the
two global version constants (`sys.version_info` and `red_version_info`)
passed explicitly.  In place of the user-facing message string it
returns the two rejection lists the message is built from
(`outdated_python_version`, `outdated_bot_version`); each cog lands in
at most one of them, the python check being tried first (`continue`). -/
def filterIncorrectCogs (sysv redv : List Nat) :
    List Installable → List Installable × List Installable × List Installable
  | [] => ([], [], [])
  | cog :: rest =>
    let out := filterIncorrectCogs sysv redv rest
    if verGt cog.min_python_version sysv then
      (out.1, cog :: out.2.1, out.2.2)
    else
      let ignore_max := verGt cog.min_bot_version cog.max_bot_version
      if verGt cog.min_bot_version redv ||
          (!ignore_max && verLt cog.max_bot_version redv) then
        (out.1, out.2.1, cog :: out.2.2)
      else
        (cog :: out.1, out.2.1, out.2.2)

/-- Acceptance predicate of the version filter: passes the interpreter
check and the bot-version bounds check (with the ignore-max rule). -/
def versionOk (sysv redv : List Nat) (cog : Installable) : Bool :=
  !verGt cog.min_python_version sysv &&
    !(verGt cog.min_bot_version redv ||
      (!verGt cog.min_bot_version cog.max_bot_version &&
        verLt cog.max_bot_version redv))

/-! ### The install executor -/

/-- The checked-out ref of each repository, keyed by repo name: the
process-global git working-copy state which `repo.checkout` mutates and
the `repo.commit` property reads. -/
abbrev RefState := List (String × String)

def lookupRef : RefState → String → Option String
  | [], _ => none
  | p :: rest, n => if p.1 == n then some p.2 else lookupRef rest n

/-- The `repo.commit` property: the currently checked-out ref, falling
back to the repo's recorded commit when no checkout has been tracked. -/
def Repo.currentCommit (r : Repo) (rs : RefState) : String :=
  match lookupRef rs r.name with
  | some c => c
  | none => r.commit

/-- `await repo.checkout(commit)`: update the repository's tracked ref. -/
def checkout : RefState → String → String → RefState
  | [], n, commit => [(n, commit)]
  | p :: rest, n, commit =>
    if p.1 == n then (n, commit) :: rest else p :: checkout rest n commit

/-- First-occurrence deduplication, the order a Python dict keeps its
keys in insertion order. -/
def dedupStr (l : List String) : List String :=
  l.foldl (fun acc s => if acc.contains s then acc else acc ++ [s]) []

/-- The `repos: Dict[str, Tuple[Repo, Dict[str, List[Installable]]]]`
grouping of `_install_cogs` (lines 336-344): cogs grouped by repo name
and, inside a repo, by commit; dict keys keep first-occurrence order and
each inner list keeps the input order. -/
def groupCogs (cogs : List Installable) :
    List (String × List (String × List Installable)) :=
  (dedupStr (cogs.map (fun c => c.repo_name))).map (fun rn =>
    let rcogs := cogs.filter (fun c => c.repo_name == rn)
    (rn, (dedupStr (rcogs.map (fun c => c.commit))).map (fun cm =>
      (cm, rcogs.filter (fun c => c.commit == cm)))))

/-- Modelled from the spec: `InstalledModule.from_installable` lives in
installable.py, which is not in the source tree.  Spec §4.3 step 6: on
success construct the installed record for the module; `pinned` is set
afterwards by the caller only for explicit-revision installs (lines
728-730), so the record starts unpinned. -/
def fromInstallable (c : Installable) : Installable :=
  { c with pinned := false }

/-- The per-cog copy attempt of `_install_cogs` (lines 351-355): a
successful copy is recorded as installed, a failed one as failed, and
the loop continues either way. -/
def copyStep (acc : List Installable × List Installable) (cog : Installable) :
    List Installable × List Installable :=
  if cog.copy_ok then (acc.1 ++ [fromInstallable cog], acc.2)
  else (acc.1, acc.2 ++ [cog])

/-- The per-repo body of `_install_cogs` (lines 347-356): note the
repo's current ref as `exit_to_commit`, check out each commit group,
attempt every copy of the group, and restore the ref unconditionally
afterwards. -/
def installCogsRepo (repo : Repo) (rs : RefState)
    (by_commit : List (String × List Installable)) :
    RefState × List Installable × List Installable :=
  let exit_to_commit := repo.currentCommit rs
  let out := by_commit.foldl
    (fun (acc : RefState × List Installable × List Installable) grp =>
      (checkout acc.1 repo.name grp.1, grp.2.foldl copyStep acc.2))
    (rs, [], [])
  (checkout out.1 repo.name exit_to_commit, out.2)

/-- The loop of `_install_cogs` over the repo groups (lines 345-357).
`none` models the crash when a cog's repo does not resolve: the
docstring and the `cast` on line 341 require `repo` to be non-None. -/
def installCogsGroups (rm : List Repo) :
    RefState → List (String × List (String × List Installable)) →
      Option (RefState × List Installable × List Installable)
  | rs, [] => some (rs, [], [])
  | rs, (rn, by_commit) :: rest =>
    match findRepo rm rn with
    | none => none
    | some repo =>
      let out := installCogsRepo repo rs by_commit
      match installCogsGroups rm out.1 rest with
      | none => none
      | some (rs', inst, fail) => some (rs', out.2.1 ++ inst, out.2.2 ++ fail)

/-- `_install_cogs` (downloader.py lines 322-359), with the checked-out
refs as explicit state. -/
def installCogs (rm : List Repo) (rs : RefState) (cogs : List Installable) :
    Option (RefState × List Installable × List Installable) :=
  installCogsGroups rm rs (groupCogs cogs)

/-! ### Requirement installation -/

/-- The requirement deduplication of `_install_requirements` (line 416):
the union of the cogs' requirement sets, each distinct specifier once. -/
def dedupReqs (cogs : List Installable) : List String :=
  dedupStr (cogs.foldl (fun acc c => acc ++ c.requirements) [])

/-- The round-robin distribution loop of `_install_requirements` (lines
419-423): the i-th requirement goes to repo index `i % len(repos)`.
Evaluating that modulus with no known repositories raises
ZeroDivisionError, modelled as `none`; with no requirement the loop body
never runs. -/
def distributeReqs (numRepos : Nat) : Nat → List String → Option (List (Nat × String))
  | _, [] => some []
  | i, req :: rest =>
    if numRepos = 0 then none
    else
      match distributeReqs numRepos (i + 1) rest with
      | none => none
      | some l => some ((i % numRepos, req) :: l)

/-- The `repos` pairing of `_install_requirements` (line 417) after the
distribution loop has filled it: the i-th known repository paired with
the requirements assigned to index i. -/
def reqBuckets (rm : List Repo) (assigned : List (Nat × String)) :
    List (Repo × List String) :=
  rm.enum.map (fun p =>
    (p.2, (assigned.filter (fun a => a.1 == p.1)).map (fun a => a.2)))

/-- The install loop of `_install_requirements` (lines 427-431): one
`install_raw_requirements` call per assigned requirement, recorded as
(repo name, requirement, success). -/
def runReqInstalls (has_reqs : List (Repo × List String)) :
    List (String × String × Bool) :=
  has_reqs.foldl
    (fun acc p => acc ++ p.2.map (fun req =>
      (p.1.name, req, p.1.install_raw_requirements [req])))
    []

/-- `_install_requirements` (downloader.py lines 401-432).  Returns the
failed requirements together with the ledger of attempted
`install_raw_requirements` calls as (repo name, requirement) pairs;
`none` models the ZeroDivisionError when no repository is registered but
requirements exist. -/
def installRequirements (rm : List Repo) (cogs : List Installable) :
    Option (List String × List (String × String)) :=
  match distributeReqs rm.length 0 (dedupReqs cogs) with
  | none => none
  | some assigned =>
    let has_reqs := (reqBuckets rm assigned).filter (fun p => !p.2.isEmpty)
    let results := runReqInstalls has_reqs
    some ((results.filter (fun t => !t.2.2)).map (fun t => t.2.1),
      results.map (fun t => (t.1, t.2.1)))

/-- The requirement gate and cog-install portion of `_update_cogs_and_libs`
(downloader.py lines 1334-1346): when any requirement failed to install
the whole update returns at once with no cog installed (lines
1338-1343); otherwise the cogs are installed.  The shared-library
reinstall and the message building that follow are beyond the claims
under check and are omitted.  The result is
(ref state, installed cogs, failed cogs, failed requirements). -/
def updateCogsAndLibs (rm : List Repo) (rs : RefState)
    (cogs_to_update : List Installable) :
    Option (RefState × List Installable × List Installable × List String) :=
  match installRequirements rm cogs_to_update with
  | none => none
  | some (failed_reqs, _) =>
    if !failed_reqs.isEmpty then some (rs, [], [], failed_reqs)
    else
      match installCogs rm rs cogs_to_update with
      | none => none
      | some (rs', installed, failed) => some (rs', installed, failed, [])

/-! ### Uninstall and the installed-set queries -/

/-- The persisted two-level install maps (Config keys `installed_cogs`
and `installed_libraries`), flattened to record lists; the two-level
keying survives in `sameModule`-uniqueness. -/
structure DState where
  installed_cogs : List Installable
  installed_libraries : List Installable

/-- `_remove_from_installed` (downloader.py lines 212-233): pop each
module, keyed by repo name and module name, from the map matching its
kind; other kinds fall through, and a missing key is suppressed. -/
def removeFromInstalled (st : DState) (modules : List Installable) : DState :=
  modules.foldl
    (fun st m =>
      if m.itype == InstallableType.COG then
        { st with installed_cogs :=
            (st.installed_cogs.filter
              (fun c => !(c.repo_name == m.repo_name && c.name == m.name))) }
      else if m.itype == InstallableType.SHARED_LIBRARY then
        { st with installed_libraries :=
            (st.installed_libraries.filter
              (fun c => !(c.repo_name == m.repo_name && c.name == m.name))) }
      else st)
    st

/-- `_delete_cog` (downloader.py lines 434-447) over the filesystem
modelled as the list of existing paths: a target that does not exist
returns without error; an existing one is removed. -/
def deleteCog (fs : List String) (target : String) : List String :=
  if fs.contains target then fs.filter (fun p => p != target) else fs

/-- Python `set(cogs)` (line 781): iterate each distinct module once. -/
def dedupModules (cogs : List Installable) : List Installable :=
  cogs.foldl insertModule []

/-- The per-cog body of `_cog_uninstall` (lines 782-792): delete the
cog's files when its install path exists, otherwise record the name as
failed; unloading the live extension is chat-platform state outside this
model.  The accumulator is (filesystem, uninstalled, failed). -/
def uninstallStep (install_path : String)
    (acc : List String × List String × List String) (cog : Installable) :
    List String × List String × List String :=
  let p := install_path ++ "/" ++ cog.name
  if acc.1.contains p then (deleteCog acc.1 p, acc.2.1 ++ [cog.name], acc.2.2)
  else (acc.1, acc.2.1, acc.2.2 ++ [cog.name])

/-- `_cog_uninstall` (downloader.py lines 768-828), state portion: purge
files best-effort over the distinct modules, then remove every record
from the persisted map (line 793) whether or not its files were found.
Returns the new persisted state, the filesystem and the
uninstalled/failed name lists. -/
def cogUninstall (st : DState) (fs : List String) (install_path : String)
    (cogs : List Installable) :
    DState × List String × List String × List String :=
  let out := (dedupModules cogs).foldl (uninstallStep install_path) (fs, [], [])
  (removeFromInstalled st cogs, out)

/-- `is_installed` (downloader.py lines 1148-1168): scan the installed
*cogs* — the installed-libraries map is never consulted — and return the
first record carrying the requested name. -/
def is_installed (st : DState) (cog_name : String) : Bool × Option Installable :=
  match st.installed_cogs.find? (fun c => c.name == cog_name) with
  | some c => (true, some c)
  | none => (false, none)

/-! ### Concrete instances used by the refutations and witnesses -/

/-- An installed shared library at commit c1 of repoA. -/
def demoLib : Installable :=
  { name := "shared1", repo_name := "repoA", commit := "c1",
    itype := InstallableType.SHARED_LIBRARY }

/-- The same shared library as published at commit c2, now disabled. -/
def demoDisabledLib : Installable :=
  { demoLib with commit := "c2", disabled := true }

/-- A repository at commit c2 whose diff from c1 reports exactly the
disabled shared library. -/
def demoRepoA : Repo :=
  { name := "repoA", commit := "c2",
    available_libraries := [demoLib],
    is_ancestor := fun a b => a == "c1" && b == "c2",
    get_modified_modules := fun a b =>
      if a == "c1" && b == "c2" then [demoDisabledLib] else [] }

/-- An installed cog of repoA already at the current commit. -/
def demoCog : Installable :=
  { name := "alpha", repo_name := "repoA", commit := "c2" }

/-- A repository at commit c2 with no available library and all-empty
diffs (no module changed between any two commits). -/
def demoRepoC : Repo :=
  { name := "repoC", commit := "c2",
    is_ancestor := fun _ _ => true }

/-- An installed cog of repoC recorded at the older commit c1. -/
def demoCogC : Installable :=
  { name := "alpha", repo_name := "repoC", commit := "c1" }

/-- A repository answering the back-compat name lookup with an enabled
occurrence of the queried cog at the current commit. -/
def demoRepoD : Repo :=
  { name := "repoD", commit := "c2",
    get_last_module_occurrence := fun n =>
      some { name := n, repo_name := "repoD", commit := "c2" } }

/-- A legacy installed record of repoD with no commit data. -/
def demoCogLegacy : Installable :=
  { name := "delta", repo_name := "repoD", commit := "" }

/-- A repository whose package installer rejects the specifier badreq. -/
def demoRepoB : Repo :=
  { name := "repoB", commit := "d1",
    install_raw_requirements := fun reqs => !reqs.contains "badreq" }

/-- A cog of repoB whose requirement fails to install. -/
def demoCogBadReq : Installable :=
  { name := "beta", repo_name := "repoB", commit := "d1",
    requirements := ["badreq"] }

/-- A sibling cog of repoB with no requirement and a working copy. -/
def demoCogGood : Installable :=
  { name := "gamma", repo_name := "repoB", commit := "d1" }

/-! ### Generic fold lemmas -/

theorem foldl_inv {α β : Type} {P : β → Prop} {f : β → α → β} :
    ∀ (l : List α) (b : β), P b → (∀ b a, a ∈ l → P b → P (f b a)) →
      P (l.foldl f b)
  | [], _, hb, _ => hb
  | a :: l, b, hb, h =>
    foldl_inv l (f b a) (h b a (List.mem_cons_self a l) hb)
      (fun b' x hx hP => h b' x (List.mem_cons_of_mem a hx) hP)

theorem foldl_estab {α β : Type} {P : β → Prop} {f : β → α → β} :
    ∀ (l : List α) (b : β) (a : α), a ∈ l → (∀ b', P (f b' a)) →
      (∀ b' x, x ∈ l → P b' → P (f b' x)) → P (l.foldl f b)
  | x :: l, b, a, ha, hest, hpres => by
    rcases List.mem_cons.mp ha with h | h
    · subst h
      exact foldl_inv l (f b a) (hest b)
        (fun b' y hy hP => hpres b' y (List.mem_cons_of_mem a hy) hP)
    · exact foldl_estab l (f b x) a h hest
        (fun b' y hy hP => hpres b' y (List.mem_cons_of_mem x hy) hP)

/-! ### Basic lemmas about the module and repository helpers -/

theorem sameModule_iff_key {a b : Installable} :
    a.sameModule b = true ↔ a.key = b.key := by
  simp [Installable.sameModule, Installable.key, Prod.ext_iff, and_assoc]

theorem sameModule_refl (a : Installable) : a.sameModule a = true := by
  simp [Installable.sameModule]

theorem sameModule_eq {a b : Installable} (h : a.sameModule b = true) :
    a.repo_name = b.repo_name ∧ a.name = b.name ∧ a.itype = b.itype := by
  simpa [Installable.sameModule, and_assoc] using h

theorem foldl_estab_inv {α β : Type} {P Q : β → Prop} {f : β → α → β} :
    ∀ (l : List α) (b : β) (a : α), a ∈ l → Q b →
      (∀ b', Q b' → P (f b' a)) →
      (∀ b' x, x ∈ l → Q b' → Q (f b' x)) →
      (∀ b' x, x ∈ l → P b' → P (f b' x)) → P (l.foldl f b)
  | x :: l, b, a, ha, hQ, hest, hQpres, hPpres => by
    rcases List.mem_cons.mp ha with h | h
    · subst h
      exact foldl_inv l (f b a) (hest b hQ)
        (fun b' y hy hP => hPpres b' y (List.mem_cons_of_mem a hy) hP)
    · exact foldl_estab_inv l (f b x) a h
        (hQpres b x (List.mem_cons_self x l) hQ) hest
        (fun b' y hy hq => hQpres b' y (List.mem_cons_of_mem x hy) hq)
        (fun b' y hy hP => hPpres b' y (List.mem_cons_of_mem x hy) hP)

theorem mem_insertModule {s : List Installable} {x y : Installable}
    (h : x ∈ insertModule s y) : x ∈ s ∨ x = y := by
  unfold insertModule at h
  by_cases hc : s.any (fun z => z.sameModule y) = true
  · simp only [hc, if_true] at h; exact Or.inl h
  · simp only [hc, if_false] at h
    rcases List.mem_append.mp h with h | h
    · exact Or.inl h
    · exact Or.inr (List.mem_singleton.mp h)

theorem insertModule_mem {s : List Installable} {x : Installable}
    (h : x ∈ s) (y : Installable) : x ∈ insertModule s y := by
  unfold insertModule
  split
  · exact h
  · exact List.mem_append_left _ h

theorem insertModule_same (s : List Installable) (y : Installable) :
    ∃ z ∈ insertModule s y, z.sameModule y = true := by
  unfold insertModule
  by_cases hc : s.any (fun z => z.sameModule y) = true
  · simp only [hc, if_true]
    rcases List.any_eq_true.mp hc with ⟨z, hz, hs⟩
    exact ⟨z, hz, hs⟩
  · exact ⟨y, by simp [hc], sameModule_refl y⟩

theorem findSame_eq_some {s : List Installable} {x y : Installable}
    (h : findSame s x = some y) : y ∈ s ∧ y.sameModule x = true :=
  ⟨List.mem_of_find?_eq_some h, by simpa using List.find?_some h⟩

theorem findSame_eq_none {s : List Installable} {x : Installable}
    (h : findSame s x = none) : ∀ y ∈ s, ¬y.sameModule x = true := by
  intro y hy
  exact List.find?_eq_none.mp h y hy

theorem findRepo_eq_some {rm : List Repo} {n : String} {r : Repo}
    (h : findRepo rm n = some r) : r ∈ rm ∧ r.name = n :=
  ⟨List.mem_of_find?_eq_some h, by simpa using List.find?_some h⟩

theorem findRepo_self {rm : List Repo} {n : String} {r : Repo}
    (h : findRepo rm n = some r) : findRepo rm r.name = some r := by
  rw [(findRepo_eq_some h).2]; exact h

theorem mem_addRepo {acc : List Repo} {r x : Repo} (h : x ∈ addRepo acc r) :
    x ∈ acc ∨ x = r := by
  unfold addRepo at h
  split at h
  · exact Or.inl h
  · rcases List.mem_append.mp h with h | h
    · exact Or.inl h
    · exact Or.inr (List.mem_singleton.mp h)

theorem resolveRepos_subset {rm : List Repo} {cogs : List Installable} :
    ∀ r ∈ resolveRepos rm cogs, r ∈ rm := by
  unfold resolveRepos
  refine foldl_inv (P := fun acc => ∀ r ∈ acc, r ∈ rm) cogs [] (by simp) ?_
  intro acc c _ hP r hr
  revert hr
  cases hfr : findRepo rm c.repo_name with
  | none => exact fun hr => hP r hr
  | some r' =>
    intro hr
    have hr' : r ∈ addRepo acc r' := hr
    rcases mem_addRepo hr' with h | h
    · exact hP r h
    · rw [h]; exact (findRepo_eq_some hfr).1

/-! ### The diff-call ledger of the resolver (claim C2) -/

theorem addToHashes_keys (hs : List HashGroup) (r : Repo) (old : String)
    (m : Installable) :
    (addToHashes hs r old m).map HashGroup.gkey = hs.map HashGroup.gkey ∨
      (addToHashes hs r old m).map HashGroup.gkey =
        hs.map HashGroup.gkey ++ [(r.name, old)] ∧
        (r.name, old) ∉ hs.map HashGroup.gkey := by
  unfold addToHashes
  by_cases hc : hs.any (fun g => g.repo_name == r.name && g.old_commit == old) = true
  · left
    simp only [hc, if_true, List.map_map]
    apply List.map_congr_left
    intro g _
    simp only [Function.comp_apply]
    split <;> rfl
  · right
    constructor
    · simp [hc, HashGroup.gkey]
    · intro hmem
      rcases List.mem_map.mp hmem with ⟨g, hg, hkey⟩
      apply hc
      refine List.any_eq_true.mpr ⟨g, hg, ?_⟩
      have h1 : g.repo_name = r.name := congrArg Prod.fst hkey
      have h2 : g.old_commit = old := congrArg Prod.snd hkey
      simp [h1, h2]

theorem buildHashes_keys_nodup (rm : List Repo) (modules : List Installable) :
    ((buildHashes rm modules).map HashGroup.gkey).Nodup := by
  unfold buildHashes
  refine foldl_inv (P := fun hs => (hs.map HashGroup.gkey).Nodup) modules []
    (by simp) ?_
  intro hs m _ hP
  unfold hashStep
  cases hfr : findRepo rm m.repo_name with
  | none => exact hP
  | some r =>
    simp only
    split
    · rcases addToHashes_keys hs r m.commit m with h | ⟨h, hnot⟩
      · rw [h]; exact hP
      · rw [h]
        refine List.Nodup.append hP (List.nodup_singleton _) ?_
        intro a ha hb
        rw [List.mem_singleton.mp hb] at ha
        exact hnot ha
    · exact hP

theorem diffStep_calls (g : HashGroup) (acc : ResolveResult) :
    (g.mods.foldl (diffStep g) acc).diff_calls = acc.diff_calls := by
  refine foldl_inv (P := fun a => a.diff_calls = acc.diff_calls) g.mods acc rfl ?_
  intro acc' m _ hP
  unfold diffStep
  cases findSame g.modified m with
  | none => exact hP
  | some mm =>
    by_cases h1 : (mm.itype == InstallableType.COG) = true <;>
      by_cases h2 : (!mm.disabled) = true <;>
        by_cases h3 : (mm.itype == InstallableType.SHARED_LIBRARY) = true <;>
          simp_all

theorem foldl_diffGroup_calls :
    ∀ (hs : List HashGroup) (acc : ResolveResult),
      (hs.foldl diffGroup acc).diff_calls =
        acc.diff_calls ++ hs.map HashGroup.gkey := by
  intro hs
  induction hs with
  | nil => intro acc; simp
  | cons g rest ih =>
    intro acc
    simp only [List.foldl_cons, List.map_cons]
    rw [ih]
    simp [diffGroup, diffStep_calls g acc]

theorem diffPhase_calls (ctu ltu : List Installable) (hs : List HashGroup) :
    (diffPhase ctu ltu hs).diff_calls = hs.map HashGroup.gkey := by
  simpa [diffPhase] using foldl_diffGroup_calls hs ⟨ctu, ltu, [], []⟩

/-! ### Provenance of the resolver's intermediate and returned sets -/

theorem libsPhase_mem (repos : List Repo) (libs : List Installable) :
    (∀ x ∈ (libsPhase repos libs).1, x ∈ libs) ∧
    (∀ x ∈ (libsPhase repos libs).2,
      ∃ r' ∈ repos, x ∈ r'.available_libraries ∧ findSame libs x = none) := by
  unfold libsPhase
  refine foldl_inv
    (P := fun acc => (∀ x ∈ acc.1, x ∈ libs) ∧
      (∀ x ∈ acc.2, ∃ r' ∈ repos, x ∈ r'.available_libraries ∧ findSame libs x = none))
    repos ([], []) (by simp) ?_
  intro acc repo hrepo hP
  refine foldl_inv (P := fun acc => (∀ x ∈ acc.1, x ∈ libs) ∧
      (∀ x ∈ acc.2, ∃ r' ∈ repos, x ∈ r'.available_libraries ∧ findSame libs x = none))
    repo.available_libraries acc hP ?_
  intro acc' lib hlib hP'
  unfold libsStep
  cases hfs : findSame libs lib with
  | some l =>
    refine ⟨?_, hP'.2⟩
    intro x hx
    rcases mem_insertModule hx with h | h
    · exact hP'.1 x h
    · rw [h]; exact (findSame_eq_some hfs).1
  | none =>
    refine ⟨hP'.1, ?_⟩
    intro x hx
    rcases mem_insertModule hx with h | h
    · exact hP'.2 x h
    · rw [h]; exact ⟨repo, hrepo, hlib, hfs⟩

theorem cogsPhase_mem (rm : List Repo) (cogs : List Installable)
    (acc : List Installable × List Installable) :
    (∀ x ∈ (cogsPhase rm cogs acc).1, x ∈ acc.1 ∨
      (x ∈ cogs ∧ x.commit ≠ "" ∧ ∃ r', findRepo rm x.repo_name = some r')) ∧
    (∀ x ∈ (cogsPhase rm cogs acc).2, x ∈ acc.2 ∨
      ∃ c ∈ cogs, ∃ r', findRepo rm c.repo_name = some r' ∧ c.commit = "" ∧
        r'.get_last_module_occurrence c.name = some x ∧ x.disabled = false) := by
  unfold cogsPhase
  refine foldl_inv
    (P := fun a => (∀ x ∈ a.1, x ∈ acc.1 ∨
        (x ∈ cogs ∧ x.commit ≠ "" ∧ ∃ r', findRepo rm x.repo_name = some r')) ∧
      (∀ x ∈ a.2, x ∈ acc.2 ∨
        ∃ c ∈ cogs, ∃ r', findRepo rm c.repo_name = some r' ∧ c.commit = "" ∧
          r'.get_last_module_occurrence c.name = some x ∧ x.disabled = false))
    cogs acc ⟨fun x hx => Or.inl hx, fun x hx => Or.inl hx⟩ ?_
  intro a cog hcog hP
  unfold cogsStep
  cases hfr : findRepo rm cog.repo_name with
  | none => exact hP
  | some repo =>
    simp only []
    by_cases hcm : cog.commit ≠ ""
    · rw [if_pos hcm]
      refine ⟨?_, hP.2⟩
      intro x hx
      rcases mem_insertModule hx with h | h
      · exact hP.1 x h
      · rw [h]; exact Or.inr ⟨hcog, hcm, repo, hfr⟩
    · rw [if_neg hcm]
      cases hlast : repo.get_last_module_occurrence cog.name with
      | none => exact hP
      | some last =>
        simp only []
        by_cases hdis : (!last.disabled) = true
        · rw [if_pos hdis]
          refine ⟨hP.1, ?_⟩
          intro x hx
          rcases mem_insertModule hx with h | h
          · exact hP.2 x h
          · rw [h]
            exact Or.inr ⟨cog, hcog, repo, hfr, by simpa using hcm,
              hlast, by simpa using hdis⟩
        · rw [if_neg hdis]; exact hP

theorem buildHashes_wf (rm : List Repo) (ms : List Installable) :
    ∀ g ∈ buildHashes rm ms, g.wf rm ms := by
  unfold buildHashes
  refine foldl_inv (P := fun (hs : List HashGroup) => ∀ g ∈ hs, g.wf rm ms) ms []
    (by simp) ?_
  intro hs m hm hP
  unfold hashStep
  cases hfr : findRepo rm m.repo_name with
  | none => exact hP
  | some r =>
    simp only
    split
    · next hcond =>
      have hcond' := hcond
      rw [Bool.and_eq_true] at hcond'
      have hne : r.commit ≠ m.commit := by
        intro h; simpa [h] using hcond'.1
      have hanc : r.is_ancestor m.commit r.commit = true := hcond'.2
      have hrname : r.name = m.repo_name := (findRepo_eq_some hfr).2
      intro g hg
      unfold addToHashes at hg
      split at hg
      · rcases List.mem_map.mp hg with ⟨g0, hg0, hup⟩
        by_cases hkey : (g0.repo_name == r.name && g0.old_commit == m.commit) = true
        · rw [if_pos hkey] at hup
          rw [Bool.and_eq_true, beq_iff_eq, beq_iff_eq] at hkey
          rcases hP g0 hg0 with ⟨hw1, hw2, hw3, hw4⟩
          subst hup
          have hrepo_eq : g0.repo = r := by
            have h2 : findRepo rm g0.repo_name = some r := by
              rw [hkey.1, hrname]; exact hfr
            rw [h2] at hw2
            exact (Option.some.inj hw2).symm
          refine ⟨hw1, hw2, ?_, ?_⟩
          · rcases hw3 with ⟨y, hy⟩
            exact ⟨y, insertModule_mem hy m⟩
          · intro x hx
            rcases mem_insertModule hx with h | h
            · exact hw4 x h
            · subst h
              refine ⟨hm, hkey.2.symm, (hkey.1.trans hrname).symm, ?_, ?_⟩
              · rw [hrepo_eq]; exact hne
              · rw [hrepo_eq]; exact hanc
        · rw [if_neg hkey] at hup
          subst hup
          exact hP g0 hg0
      · rcases List.mem_append.mp hg with h | h
        · exact hP g h
        · rw [List.mem_singleton.mp h]
          refine ⟨rfl, findRepo_self hfr, ⟨m, by simp⟩, ?_⟩
          intro x hx
          rw [List.mem_singleton.mp hx]
          exact ⟨hm, rfl, hrname.symm, hne, hanc⟩
    · exact hP

theorem diffPhase_mem (ctu ltu : List Installable) (hs : List HashGroup) :
    (∀ x ∈ (diffPhase ctu ltu hs).cogs_to_update, x ∈ ctu ∨
      ∃ g ∈ hs, ∃ m ∈ g.mods, findSame g.modified m = some x ∧
        x.itype = InstallableType.COG ∧ x.disabled = false) ∧
    (∀ x ∈ (diffPhase ctu ltu hs).libraries_to_update, x ∈ ltu ∨
      ∃ g ∈ hs, ∃ m ∈ g.mods, findSame g.modified m = some x ∧
        x.itype = InstallableType.SHARED_LIBRARY) ∧
    (∀ x ∈ (diffPhase ctu ltu hs).update_commits,
      ∃ g ∈ hs, ∃ m ∈ g.mods, findSame g.modified m = none ∧
        x = { m with commit := g.repo.commit }) := by
  unfold diffPhase
  refine foldl_inv
    (P := fun (acc : ResolveResult) =>
      (∀ x ∈ acc.cogs_to_update, x ∈ ctu ∨
        ∃ g ∈ hs, ∃ m ∈ g.mods, findSame g.modified m = some x ∧
          x.itype = InstallableType.COG ∧ x.disabled = false) ∧
      (∀ x ∈ acc.libraries_to_update, x ∈ ltu ∨
        ∃ g ∈ hs, ∃ m ∈ g.mods, findSame g.modified m = some x ∧
          x.itype = InstallableType.SHARED_LIBRARY) ∧
      (∀ x ∈ acc.update_commits,
        ∃ g ∈ hs, ∃ m ∈ g.mods, findSame g.modified m = none ∧
          x = { m with commit := g.repo.commit }))
    hs ⟨ctu, ltu, [], []⟩
    ⟨fun x hx => Or.inl hx, fun x hx => Or.inl hx, by simp⟩ ?_
  intro acc g hg hP
  unfold diffGroup
  simp only
  refine foldl_inv
    (P := fun (acc : ResolveResult) =>
      (∀ x ∈ acc.cogs_to_update, x ∈ ctu ∨
        ∃ g ∈ hs, ∃ m ∈ g.mods, findSame g.modified m = some x ∧
          x.itype = InstallableType.COG ∧ x.disabled = false) ∧
      (∀ x ∈ acc.libraries_to_update, x ∈ ltu ∨
        ∃ g ∈ hs, ∃ m ∈ g.mods, findSame g.modified m = some x ∧
          x.itype = InstallableType.SHARED_LIBRARY) ∧
      (∀ x ∈ acc.update_commits,
        ∃ g ∈ hs, ∃ m ∈ g.mods, findSame g.modified m = none ∧
          x = { m with commit := g.repo.commit }))
    g.mods acc hP ?_
  intro acc' m hm hP'
  unfold diffStep
  cases hfs : findSame g.modified m with
  | none =>
    refine ⟨hP'.1, hP'.2.1, ?_⟩
    intro x hx
    rcases List.mem_append.mp hx with h | h
    · exact hP'.2.2 x h
    · rw [List.mem_singleton.mp h]
      exact ⟨g, hg, m, hm, hfs, rfl⟩
  | some mm =>
    simp only []
    by_cases h1 : (mm.itype == InstallableType.COG) = true
    · rw [if_pos h1]
      by_cases h2 : (!mm.disabled) = true
      · rw [if_pos h2]
        refine ⟨?_, hP'.2.1, hP'.2.2⟩
        intro x hx
        rcases mem_insertModule hx with h | h
        · exact hP'.1 x h
        · rw [h]
          exact Or.inr ⟨g, hg, m, hm, hfs, by simpa using h1, by simpa using h2⟩
      · rw [if_neg h2]; exact hP'
    · rw [if_neg h1]
      by_cases h3 : (mm.itype == InstallableType.SHARED_LIBRARY) = true
      · rw [if_pos h3]
        refine ⟨hP'.1, ?_, hP'.2.2⟩
        intro x hx
        rcases mem_insertModule hx with h | h
        · exact hP'.2.1 x h
        · rw [h]
          exact Or.inr ⟨g, hg, m, hm, hfs, by simpa using h3⟩
      · rw [if_neg h3]; exact hP'

/-! ### Claim C2 -/

/-- C2: one call to the update resolver issues at most one diff query
per distinct (repository, old commit) pair — the ledger of issued
`get_modified_modules` queries carries no duplicate pair — and every
queried pair stems from an input record whose recorded commit is the
pair's old commit and whose repository resolves to the pair's
repository, the recorded commit differing from the current one. -/
theorem availableUpdates_single_diff_per_pair (rm : List Repo)
    (cogs libs : List Installable) :
    (availableUpdates rm cogs libs).diff_calls.Nodup ∧
    ∀ p ∈ (availableUpdates rm cogs libs).diff_calls,
      ∃ m, (m ∈ cogs ∨ m ∈ libs) ∧ m.commit = p.2 ∧
        ∃ r, findRepo rm m.repo_name = some r ∧ r.name = p.1 ∧
          r.commit ≠ p.2 := by
  have hav : availableUpdates rm cogs libs =
      diffPhase (cogsPhase rm cogs ((libsPhase (resolveRepos rm cogs) libs).1, [])).2
        (libsPhase (resolveRepos rm cogs) libs).2
        (buildHashes rm
          (cogsPhase rm cogs ((libsPhase (resolveRepos rm cogs) libs).1, [])).1) := rfl
  constructor
  · rw [hav, diffPhase_calls]
    exact buildHashes_keys_nodup _ _
  · intro p hp
    rw [hav, diffPhase_calls] at hp
    rcases List.mem_map.mp hp with ⟨g, hg, hgk⟩
    subst hgk
    rcases buildHashes_wf rm _ g hg with ⟨hw1, hw2, ⟨x, hx⟩, hw4⟩
    rcases hw4 x hx with ⟨hms, hxc, hxr, hne, -⟩
    refine ⟨x, ?_, hxc, g.repo, by rw [hxr]; exact hw2, hw1, ?_⟩
    · rcases (cogsPhase_mem rm cogs
          ((libsPhase (resolveRepos rm cogs) libs).1, [])).1 x hms with h | h
      · exact Or.inr ((libsPhase_mem (resolveRepos rm cogs) libs).1 x h)
      · exact Or.inl h.1
    · exact fun h => hne (h.trans hxc.symm)

/-! ### Claim C6 -/

/-- C6 (amended): disabled cogs are never update candidates — every
element of the resolver's returned cogs-to-update set is non-disabled,
whether it entered through the back-compat name lookup or through a
diff result.  (The disabled check is not applied to shared libraries;
see the counterexample.) -/
theorem availableUpdates_no_disabled_cog (rm : List Repo)
    (cogs libs : List Installable) :
    ∀ x ∈ (availableUpdates rm cogs libs).cogs_to_update,
      x.disabled = false := by
  have hav : availableUpdates rm cogs libs =
      diffPhase (cogsPhase rm cogs ((libsPhase (resolveRepos rm cogs) libs).1, [])).2
        (libsPhase (resolveRepos rm cogs) libs).2
        (buildHashes rm
          (cogsPhase rm cogs ((libsPhase (resolveRepos rm cogs) libs).1, [])).1) := rfl
  intro x hx
  rw [hav] at hx
  rcases (diffPhase_mem _ _ _).1 x hx with h | ⟨g, _, m, _, _, _, hdis⟩
  · rcases (cogsPhase_mem rm cogs
        ((libsPhase (resolveRepos rm cogs) libs).1, [])).2 x h with h2 | ⟨c, _, r', _, _, _, hdis⟩
    · simp at h2
    · exact hdis
  · exact hdis

/-- Witness for C6's amended claim: the legacy record's last occurrence
lands in cogs_to_update and is indeed non-disabled. -/
theorem availableUpdates_no_disabled_cog_witness :
    ((Installable.mk "delta" "repoD" "c2" InstallableType.COG false false
        false [] [] [] [] true) ∈
      (availableUpdates [demoRepoD] [demoCogLegacy] []).cogs_to_update) ∧
    (Installable.mk "delta" "repoD" "c2" InstallableType.COG false false
        false [] [] [] [] true).disabled = false := by
  have hmem : (Installable.mk "delta" "repoD" "c2" InstallableType.COG false
      false false [] [] [] [] true) ∈
      (availableUpdates [demoRepoD] [demoCogLegacy] []).cogs_to_update := by
    have heval : (availableUpdates [demoRepoD]
        [demoCogLegacy] []).cogs_to_update =
        [Installable.mk "delta" "repoD" "c2" InstallableType.COG false false
          false [] [] [] [] true] := rfl
    rw [heval]
    exact List.mem_singleton.mpr rfl
  exact ⟨hmem, availableUpdates_no_disabled_cog [demoRepoD]
    [demoCogLegacy] [] _ hmem⟩

/-- C6 counterexample: on a concrete input the resolver finds the
disabled shared library `demoDisabledLib` in the diff between the
installed commit and the repository's current commit, yet returns it in
the libraries-to-update set instead of dropping it. -/
theorem availableUpdates_disabled_lib_included :
    demoDisabledLib.disabled = true ∧
    demoDisabledLib ∈ demoRepoA.get_modified_modules "c1" "c2" ∧
    demoDisabledLib ∈
      (availableUpdates [demoRepoA] [demoCog] [demoLib]).libraries_to_update := by
  refine ⟨rfl, by simp [demoRepoA], ?_⟩
  have : (availableUpdates [demoRepoA] [demoCog] [demoLib]).libraries_to_update
      = [demoDisabledLib] := by rfl
  rw [this]
  exact List.mem_singleton.mpr rfl

/-! ### Claim C9 -/

/-- C9: `is_installed` consults only the installed-cogs map: its answer
is unchanged by any replacement of the installed-libraries map, it
returns true together with a record exactly when some installed cog
carries the queried name, and a shared library installed through
Downloader and not shadowed by an installed cog of the same name yields
(false, none). -/
theorem is_installed_only_cogs (st st' : DState) (lib : Installable)
    (n : String)
    (hsame : st'.installed_cogs = st.installed_cogs)
    (hlib : lib ∈ st.installed_libraries)
    (hnoshadow : ∀ c ∈ st.installed_cogs, c.name ≠ lib.name) :
    is_installed st' n = is_installed st n ∧
    ((is_installed st n).1 = true ↔ ∃ c ∈ st.installed_cogs, c.name = n) ∧
    is_installed st lib.name = (false, none) := by
  refine ⟨by unfold is_installed; rw [hsame], ?_, ?_⟩
  · unfold is_installed
    cases hf : st.installed_cogs.find? (fun c => c.name == n) with
    | some c =>
      simp only []
      constructor
      · intro _
        exact ⟨c, List.mem_of_find?_eq_some hf, by simpa using List.find?_some hf⟩
      · intro _; trivial
    | none =>
      simp only []
      constructor
      · intro h; cases h
      · intro ⟨c, hc, hcn⟩
        have := List.find?_eq_none.mp hf c hc
        simp [hcn] at this
  · unfold is_installed
    have hf : st.installed_cogs.find? (fun c => c.name == lib.name) = none := by
      refine List.find?_eq_none.mpr ?_
      intro c hc
      simpa using hnoshadow c hc
    rw [hf]

/-- Witness for C9 at a concrete state: the installed library demoLib
is reported as not installed, and replacing the libraries map does not
change the answer. -/
theorem is_installed_only_cogs_witness :
    (DState.mk [demoCog] [demoDisabledLib]).installed_cogs =
        (DState.mk [demoCog] [demoLib]).installed_cogs ∧
    demoLib ∈ (DState.mk [demoCog] [demoLib]).installed_libraries ∧
    (∀ c ∈ (DState.mk [demoCog] [demoLib]).installed_cogs,
      c.name ≠ demoLib.name) ∧
    (is_installed (DState.mk [demoCog] [demoDisabledLib]) "alpha" =
        is_installed (DState.mk [demoCog] [demoLib]) "alpha" ∧
      ((is_installed (DState.mk [demoCog] [demoLib]) "alpha").1 = true ↔
        ∃ c ∈ (DState.mk [demoCog] [demoLib]).installed_cogs, c.name = "alpha") ∧
      is_installed (DState.mk [demoCog] [demoLib]) demoLib.name = (false, none)) :=
  ⟨rfl, by simp, by decide,
    is_installed_only_cogs _ _ _ _ rfl (by simp) (by decide)⟩

/-! ### Claim C8 -/

theorem contains_mem {l : List String} {s : String} :
    l.contains s = true ↔ s ∈ l := by
  simp [List.contains]

theorem mem_deleteCog {fs : List String} {t p : String}
    (h : p ∈ deleteCog fs t) : p ∈ fs := by
  unfold deleteCog at h
  split at h
  · exact (List.mem_filter.mp h).1
  · exact h

theorem dedupModules_same {cogs : List Installable} {c : Installable}
    (hc : c ∈ cogs) :
    ∃ z ∈ dedupModules cogs, z.sameModule c = true := by
  unfold dedupModules
  refine foldl_estab
    (P := fun (acc : List Installable) => ∃ z ∈ acc, z.sameModule c = true)
    cogs [] c hc (fun acc => insertModule_same acc c) ?_
  intro acc m _ h
  rcases h with ⟨z, hz, hsm⟩
  exact ⟨z, insertModule_mem hz m, hsm⟩

theorem removeFromInstalled_removes {st : DState} {mods : List Installable}
    {c : Installable} (hc : c ∈ mods) (hty : c.itype = InstallableType.COG) :
    ∀ x ∈ (removeFromInstalled st mods).installed_cogs,
      ¬(x.repo_name = c.repo_name ∧ x.name = c.name) := by
  unfold removeFromInstalled
  refine foldl_estab
    (P := fun (s : DState) => ∀ x ∈ s.installed_cogs,
      ¬(x.repo_name = c.repo_name ∧ x.name = c.name))
    mods st c hc ?_ ?_
  · intro s
    simp only [hty, beq_self_eq_true, if_true]
    intro x hx hmatch
    have hpred := (List.mem_filter.mp hx).2
    simp [hmatch.1, hmatch.2] at hpred
  · intro s m _ hP x hx
    by_cases h1 : (m.itype == InstallableType.COG) = true
    · simp only [h1, if_true] at hx
      exact hP x (List.mem_filter.mp hx).1
    · by_cases h2 : (m.itype == InstallableType.SHARED_LIBRARY) = true
      · simp only [h1, h2, if_false, if_true] at hx
        exact hP x hx
      · simp only [h1, h2, if_false] at hx
        exact hP x hx

/-- C8: uninstalling previously installed modules always returns (the
embedded operation is total) and removes each module's record from the
persisted cogs map even when its files are absent from the filesystem;
the module is then merely reported under the not-found names.  File
deletion is best-effort: a missing path is not an error. -/
theorem cogUninstall_removes_record (st : DState) (fs : List String)
    (ip : String) (cogs : List Installable) (c : Installable)
    (hc : c ∈ cogs) (hty : c.itype = InstallableType.COG)
    (habsent : fs.contains (ip ++ "/" ++ c.name) = false) :
    (∀ x ∈ (cogUninstall st fs ip cogs).1.installed_cogs,
      ¬(x.repo_name = c.repo_name ∧ x.name = c.name)) ∧
    c.name ∈ (cogUninstall st fs ip cogs).2.2.2 := by
  constructor
  · exact removeFromInstalled_removes hc hty
  · rcases dedupModules_same hc with ⟨c', hc', hsm⟩
    have hname : c'.name = c.name := (sameModule_eq hsm).2.1
    show c.name ∈ ((dedupModules cogs).foldl (uninstallStep ip) (fs, [], [])).2.2
    refine foldl_estab_inv
      (P := fun (acc : List String × List String × List String) => c.name ∈ acc.2.2)
      (Q := fun (acc : List String × List String × List String) => ∀ p ∈ acc.1, p ∈ fs)
      (dedupModules cogs) (fs, [], []) c' hc' (fun p hp => hp) ?_ ?_ ?_
    · intro acc hQ
      unfold uninstallStep
      rw [hname]
      by_cases hcont : acc.1.contains (ip ++ "/" ++ c.name) = true
      · exfalso
        have hmem : (ip ++ "/" ++ c.name) ∈ fs :=
          hQ _ (contains_mem.mp hcont)
        rw [← contains_mem] at hmem
        rw [habsent] at hmem
        cases hmem
      · rw [if_neg hcont]
        exact List.mem_append_right _ (List.mem_singleton.mpr rfl)
    · intro acc m _ hQ p hp
      unfold uninstallStep at hp
      by_cases h2 : acc.1.contains (ip ++ "/" ++ m.name) = true
      · rw [if_pos h2] at hp
        exact hQ p (mem_deleteCog hp)
      · rw [if_neg h2] at hp
        exact hQ p hp
    · intro acc m _ hP
      unfold uninstallStep
      by_cases h2 : acc.1.contains (ip ++ "/" ++ m.name) = true
      · rw [if_pos h2]; exact hP
      · rw [if_neg h2]; exact List.mem_append_left _ hP

/-- Witness for C8: uninstalling demoCog whose path is not on the
(empty) filesystem still removes its record from a state that contains
it. -/
theorem cogUninstall_removes_record_witness :
    demoCog ∈ [demoCog] ∧ demoCog.itype = InstallableType.COG ∧
    ([] : List String).contains ("cogs" ++ "/" ++ demoCog.name) = false ∧
    ((∀ x ∈ (cogUninstall (DState.mk [demoCog] []) [] "cogs"
        [demoCog]).1.installed_cogs,
      ¬(x.repo_name = demoCog.repo_name ∧ x.name = demoCog.name)) ∧
    demoCog.name ∈ (cogUninstall (DState.mk [demoCog] []) [] "cogs"
        [demoCog]).2.2.2) :=
  ⟨List.mem_singleton.mpr rfl, rfl, rfl,
    cogUninstall_removes_record _ _ _ _ _ (List.mem_singleton.mpr rfl) rfl rfl⟩

/-! ### Claim C5 -/

theorem verLt_irrefl : ∀ a : List Nat, verLt a a = false
  | [] => rfl
  | a :: as => by simp [verLt, verLt_irrefl as]

theorem filterIncorrectCogs_eq (sysv redv : List Nat) :
    ∀ cogs : List Installable,
      filterIncorrectCogs sysv redv cogs =
        (cogs.filter (versionOk sysv redv),
         cogs.filter (fun c => verGt c.min_python_version sysv),
         cogs.filter (fun c => !verGt c.min_python_version sysv &&
           (verGt c.min_bot_version redv ||
             (!verGt c.min_bot_version c.max_bot_version &&
               verLt c.max_bot_version redv))))
  | [] => rfl
  | cog :: rest => by
    have ih := filterIncorrectCogs_eq sysv redv rest
    unfold filterIncorrectCogs
    rw [ih]
    by_cases h1 : verGt cog.min_python_version sysv = true
    · simp [h1, versionOk, List.filter_cons]
    · by_cases h2 : (verGt cog.min_bot_version redv ||
          (!verGt cog.min_bot_version cog.max_bot_version &&
            verLt cog.max_bot_version redv)) = true
      · simp [h1, h2, versionOk, List.filter_cons]
      · simp only [Bool.not_eq_true] at h1 h2
        simp [h1, h2, versionOk, List.filter_cons]

/-- C5: the version filter is a pure order-preserving partition of its
input: accepted cogs are exactly those passing the interpreter check and
the bot-version bounds check (in the source's order and with the
ignore-max rule), each rejected cog is reported under exactly one
reason, the python check being tried first; at the boundaries, a cog
whose minimum bot version equals the host version is accepted, one
whose maximum equals the host version (with minimum not above it) is
accepted, and one whose maximum is strictly below the host version is
accepted exactly when the maximum is ignored for being strictly below
the minimum while the minimum itself is not above the host version. -/
theorem filterIncorrectCogs_spec (sysv redv : List Nat)
    (cogs : List Installable) (cog : Installable)
    (hpy : verGt cog.min_python_version sysv = false) :
    filterIncorrectCogs sysv redv cogs =
      (cogs.filter (versionOk sysv redv),
       cogs.filter (fun c => verGt c.min_python_version sysv),
       cogs.filter (fun c => !verGt c.min_python_version sysv &&
         (verGt c.min_bot_version redv ||
           (!verGt c.min_bot_version c.max_bot_version &&
             verLt c.max_bot_version redv)))) ∧
    (cog.min_bot_version = redv →
      (filterIncorrectCogs sysv redv [cog]).1 = [cog]) ∧
    (cog.max_bot_version = redv → verGt cog.min_bot_version redv = false →
      (filterIncorrectCogs sysv redv [cog]).1 = [cog]) ∧
    (verLt cog.max_bot_version redv = true →
      ((filterIncorrectCogs sysv redv [cog]).1 = [cog] ↔
        verGt cog.min_bot_version cog.max_bot_version = true ∧
          verGt cog.min_bot_version redv = false)) := by
  have hpy' : verLt sysv cog.min_python_version = false := hpy
  refine ⟨filterIncorrectCogs_eq sysv redv cogs, ?_, ?_, ?_⟩
  · intro hmin
    rw [filterIncorrectCogs_eq]
    simp [versionOk, hpy, hpy', hmin, verLt_irrefl, verGt]
  · intro hmax hmin
    rw [filterIncorrectCogs_eq]
    simp [versionOk, hpy, hmin, hmax, verLt_irrefl]
  · intro hlt
    rw [filterIncorrectCogs_eq]
    constructor
    · intro hacc
      by_cases hI : verGt cog.min_bot_version cog.max_bot_version = true
      · refine ⟨hI, ?_⟩
        by_cases hA : verGt cog.min_bot_version redv = true
        · simp [versionOk, hpy, hI, hA, hlt] at hacc
        · simpa using hA
      · simp only [Bool.not_eq_true] at hI
        simp [versionOk, hpy, hI, hlt] at hacc
    · intro ⟨hI, hA⟩
      simp [versionOk, hpy, hI, hA, hlt]

/-- Witness for C5 at concrete versions: host version 3.3.0, a cog with
min bot version equal to the host version. -/
theorem filterIncorrectCogs_spec_witness :
    verGt (Installable.mk "w" "r" "" InstallableType.COG false false false
        [3, 6] [3, 3, 0] [3, 3, 0] [] true).min_python_version [3, 8, 0] = false ∧
    (filterIncorrectCogs [3, 8, 0] [3, 3, 0]
        [Installable.mk "w" "r" "" InstallableType.COG false false false
          [3, 6] [3, 3, 0] [3, 3, 0] [] true]).1 =
      [Installable.mk "w" "r" "" InstallableType.COG false false false
        [3, 6] [3, 3, 0] [3, 3, 0] [] true] :=
  ⟨by decide,
    (filterIncorrectCogs_spec [3, 8, 0] [3, 3, 0] []
      (Installable.mk "w" "r" "" InstallableType.COG false false false
        [3, 6] [3, 3, 0] [3, 3, 0] [] true) (by decide)).2.1 rfl⟩

/-! ### Claim C10 -/

theorem dedupStr_nodup (l : List String) : (dedupStr l).Nodup := by
  unfold dedupStr
  refine foldl_inv (P := fun (acc : List String) => acc.Nodup) l []
    List.nodup_nil ?_
  intro acc s _ h
  by_cases hc : acc.contains s = true
  · rw [if_pos hc]; exact h
  · rw [if_neg hc]
    refine List.Nodup.append h (List.nodup_singleton s) ?_
    intro a ha hb
    rw [List.mem_singleton.mp hb] at ha
    exact hc (contains_mem.mpr ha)

theorem distributeReqs_some {n : Nat} (hn : n ≠ 0) :
    ∀ (reqs : List String) (i : Nat),
      ∃ l, distributeReqs n i reqs = some l ∧ l.map Prod.snd = reqs ∧
        ∀ p ∈ l, p.1 < n
  | [], _ => ⟨[], rfl, rfl, by simp⟩
  | req :: rest, i => by
    rcases distributeReqs_some hn rest (i + 1) with ⟨l, hl, hmap, hlt⟩
    refine ⟨(i % n, req) :: l, ?_, ?_, ?_⟩
    · unfold distributeReqs
      rw [if_neg hn, hl]
    · simp [hmap]
    · intro p hp
      rcases List.mem_cons.mp hp with h | h
      · rw [h]; exact Nat.mod_lt _ (Nat.pos_of_ne_zero hn)
      · exact hlt p h

theorem distributeReqs_map_snd :
    ∀ {n i : Nat} {reqs : List String} {l : List (Nat × String)},
      distributeReqs n i reqs = some l → l.map Prod.snd = reqs
  | _, _, [], _, h => by
    cases h; rfl
  | n, i, req :: rest, l, h => by
    unfold distributeReqs at h
    split at h
    · cases h
    · cases hrec : distributeReqs n (i + 1) rest with
      | none => rw [hrec] at h; cases h
      | some l' =>
        rw [hrec] at h
        cases Option.some.inj h
        simp [distributeReqs_map_snd hrec]

theorem distributeReqs_zero {reqs : List String} (h : reqs ≠ []) (i : Nat) :
    distributeReqs 0 i reqs = none := by
  cases reqs with
  | nil => exact absurd rfl h
  | cons a l => unfold distributeReqs; rw [if_pos rfl]

theorem foldl_append_eq {α β : Type} (f : α → List β) :
    ∀ (l : List α) (acc : List β),
      l.foldl (fun acc x => acc ++ f x) acc = acc ++ (l.map f).flatten
  | [], acc => by simp
  | x :: l, acc => by
    simp [foldl_append_eq f l, List.append_assoc]

theorem runReqInstalls_eq (L : List (Repo × List String)) :
    runReqInstalls L = (L.map (fun p => p.2.map (fun req =>
      (p.1.name, req, p.1.install_raw_requirements [req])))).flatten := by
  unfold runReqInstalls
  simpa using foldl_append_eq _ L []

theorem runReqInstalls_reqs (L : List (Repo × List String)) :
    (runReqInstalls L).map (fun t => t.2.1) = (L.map (fun p => p.2)).flatten := by
  rw [runReqInstalls_eq, List.map_flatten, List.map_map]
  congr 1
  apply List.map_congr_left
  intro p _
  simp only [Function.comp_apply, List.map_map]
  have hcomp : ((fun (t : String × String × Bool) => t.2.1) ∘
      fun req => (p.1.name, req, p.1.install_raw_requirements [req])) = id := rfl
  rw [hcomp, List.map_id]

theorem join_filter_ne_empty {α : Type} :
    ∀ L : List (α × List String),
      ((L.filter (fun p => !p.2.isEmpty)).map (fun p => p.2)).flatten =
        (L.map (fun p => p.2)).flatten
  | [] => rfl
  | p :: L => by
    by_cases h : (!p.2.isEmpty) = true
    · simp only [List.filter_cons, h, if_true, List.map_cons, List.flatten_cons]
      rw [join_filter_ne_empty L]
    · have hnil : p.2 = [] := by simpa using h
      simp only [List.filter_cons, h, if_false, List.map_cons, List.flatten_cons,
        hnil, List.nil_append]
      exact join_filter_ne_empty L

theorem join_filters_nodup (l : List (Nat × String))
    (hnd : (l.map Prod.snd).Nodup) :
    ∀ js : List Nat, js.Nodup →
      ((js.map (fun j => (l.filter (fun a => a.1 == j)).map Prod.snd)).flatten).Nodup
  | [], _ => by simp
  | j :: js, hjs => by
    simp only [List.map_cons, List.flatten_cons]
    refine List.Nodup.append ?_
      (join_filters_nodup l hnd js (List.nodup_cons.mp hjs).2) ?_
    · exact List.Nodup.sublist (List.Sublist.map _ (List.filter_sublist l)) hnd
    · intro s hs1 hs2
      rcases List.mem_map.mp hs1 with ⟨a, ha, hsa⟩
      have haj : a.1 = j := by simpa using (List.mem_filter.mp ha).2
      rcases List.mem_flatten.mp hs2 with ⟨L, hL, hsL⟩
      rcases List.mem_map.mp hL with ⟨j', hj', hLj⟩
      subst hLj
      rcases List.mem_map.mp hsL with ⟨b, hb, hsb⟩
      have hbj : b.1 = j' := by simpa using (List.mem_filter.mp hb).2
      have hab : a = b :=
        List.inj_on_of_nodup_map hnd (List.mem_filter.mp ha).1
          (List.mem_filter.mp hb).1 (hsa.trans hsb.symm)
      exact (List.nodup_cons.mp hjs).1 (by rw [← haj, hab, hbj]; exact hj')

theorem filter_reqBuckets_nil (rm : List Repo) :
    (reqBuckets rm []).filter (fun p => !p.2.isEmpty) = [] := by
  rw [List.filter_eq_nil]
  intro p hp
  rcases List.mem_map.mp hp with ⟨q, _, hqe⟩
  subst hqe
  simp

/-- C10: `_install_requirements` deduplicates the union of the given
cogs' requirement sets — each distinct specifier is attempted at most
once per call; an empty union yields an empty failed tuple with no
install attempt; and because the round-robin distribution divides by the
number of known repositories, the call returns whenever at least one
repository is registered and raises (none) exactly when none is while
requirements exist. -/
theorem installRequirements_spec (rm : List Repo) (cogs : List Installable) :
    (∀ failed attempts,
      installRequirements rm cogs = some (failed, attempts) →
        (attempts.map Prod.snd).Nodup) ∧
    (dedupReqs cogs = [] → installRequirements rm cogs = some ([], [])) ∧
    (rm ≠ [] → (installRequirements rm cogs).isSome = true) ∧
    (rm = [] → dedupReqs cogs ≠ [] → installRequirements rm cogs = none) := by
  refine ⟨?_, ?_, ?_, ?_⟩
  · intro failed attempts h
    unfold installRequirements at h
    cases hd : distributeReqs rm.length 0 (dedupReqs cogs) with
    | none => rw [hd] at h; cases h
    | some assigned =>
      rw [hd] at h
      simp only [] at h
      have hatt : attempts =
          (runReqInstalls ((reqBuckets rm assigned).filter
            (fun p => !p.2.isEmpty))).map (fun t => (t.1, t.2.1)) :=
        (congrArg Prod.snd (Option.some.inj h)).symm
      have hone : attempts.map Prod.snd =
          ((rm.enum.map Prod.fst).map (fun j =>
            (assigned.filter (fun a => a.1 == j)).map Prod.snd)).flatten := by
        rw [hatt, List.map_map]
        have : (Prod.snd ∘ fun (t : String × String × Bool) => (t.1, t.2.1)) =
            fun t => t.2.1 := rfl
        rw [this, runReqInstalls_reqs, join_filter_ne_empty]
        unfold reqBuckets
        rw [List.map_map, List.map_map]
        rfl
      rw [hone]
      have hnd : (assigned.map Prod.snd).Nodup := by
        rw [distributeReqs_map_snd hd]
        exact dedupStr_nodup _
      refine join_filters_nodup assigned hnd _ ?_
      rw [List.enum_map_fst]
      exact List.nodup_range _
  · intro hreq
    unfold installRequirements
    rw [hreq]
    have h1 : distributeReqs rm.length 0 ([] : List String) = some [] := rfl
    rw [h1]
    simp only [filter_reqBuckets_nil]
    rfl
  · intro hrm
    have hn : rm.length ≠ 0 := by
      simpa [List.length_eq_zero] using hrm
    rcases distributeReqs_some hn (dedupReqs cogs) 0 with ⟨l, hl, -, -⟩
    unfold installRequirements
    rw [hl]
    rfl
  · intro hrm hreq
    unfold installRequirements
    subst hrm
    simp only [List.length_nil]
    rw [distributeReqs_zero hreq]

/-- Witness for C10: with the single repository demoRepoB registered the
call returns, and a cog set with no requirement yields the empty result. -/
theorem installRequirements_spec_witness :
    ([demoRepoB] ≠ ([] : List Repo) ∧
      (installRequirements [demoRepoB] [demoCogBadReq]).isSome = true) ∧
    (dedupReqs [demoCogGood] = [] ∧
      installRequirements [demoRepoB] [demoCogGood] = some ([], [])) :=
  ⟨⟨by simp, (installRequirements_spec [demoRepoB] [demoCogBadReq]).2.2.1
      (by simp)⟩,
    ⟨rfl, (installRequirements_spec [demoRepoB] [demoCogGood]).2.1 rfl⟩⟩

/-! ### Claim C4 -/

theorem lookupRef_checkout_self : ∀ (rs : RefState) (n c : String),
    lookupRef (checkout rs n c) n = some c
  | [], n, c => by simp [checkout, lookupRef]
  | p :: rest, n, c => by
    unfold checkout
    by_cases h : (p.1 == n) = true
    · rw [if_pos h]
      simp [lookupRef]
    · rw [if_neg h]
      unfold lookupRef
      rw [if_neg h]
      exact lookupRef_checkout_self rest n c

theorem lookupRef_checkout_other :
    ∀ (rs : RefState) (n c k : String), k ≠ n →
      lookupRef (checkout rs n c) k = lookupRef rs k
  | [], n, c, k, hk => by
    simp only [checkout, lookupRef]
    rw [if_neg (by simpa using fun h => hk h.symm)]
  | p :: rest, n, c, k, hk => by
    unfold checkout
    by_cases h : (p.1 == n) = true
    · rw [if_pos h]
      unfold lookupRef
      rw [if_neg (by simpa using fun hh => hk hh.symm)]
      rw [if_neg (by rw [beq_iff_eq] at h ⊢; rw [h]; exact fun hh => hk hh.symm)]
    · rw [if_neg h]
      unfold lookupRef
      by_cases h2 : (p.1 == k) = true
      · rw [if_pos h2, if_pos h2]
      · rw [if_neg h2, if_neg h2]
        exact lookupRef_checkout_other rest n c k hk

theorem installCogsRepo_refs (repo : Repo) (rs : RefState)
    (by_commit : List (String × List Installable)) :
    (∀ k, k ≠ repo.name →
      lookupRef (installCogsRepo repo rs by_commit).1 k = lookupRef rs k) ∧
    lookupRef (installCogsRepo repo rs by_commit).1 repo.name =
      some (repo.currentCommit rs) := by
  unfold installCogsRepo
  simp only []
  constructor
  · intro k hk
    rw [lookupRef_checkout_other _ _ _ _ hk]
    exact foldl_inv
      (P := fun (acc : RefState × List Installable × List Installable) =>
        lookupRef acc.1 k = lookupRef rs k)
      by_commit (rs, [], []) rfl
      (fun acc grp _ hP => by
        show lookupRef (checkout acc.1 repo.name grp.1) k = lookupRef rs k
        rw [lookupRef_checkout_other _ _ _ _ hk]
        exact hP)
  · exact lookupRef_checkout_self _ _ _

theorem copyStep_fold_mono (grp : List Installable)
    (acc : List Installable × List Installable) :
    (∀ x ∈ acc.1, x ∈ (grp.foldl copyStep acc).1) ∧
    (∀ x ∈ acc.2, x ∈ (grp.foldl copyStep acc).2) := by
  refine foldl_inv
    (P := fun (a : List Installable × List Installable) =>
      (∀ x ∈ acc.1, x ∈ a.1) ∧ (∀ x ∈ acc.2, x ∈ a.2))
    grp acc ⟨fun x hx => hx, fun x hx => hx⟩ ?_
  intro a m _ hP
  unfold copyStep
  by_cases hok : m.copy_ok = true
  · rw [if_pos hok]
    exact ⟨fun x hx => List.mem_append_left _ (hP.1 x hx), hP.2⟩
  · rw [if_neg hok]
    exact ⟨hP.1, fun x hx => List.mem_append_left _ (hP.2 x hx)⟩

theorem copyStep_fold_mem {grp : List Installable} {c : Installable}
    (hc : c ∈ grp) (acc : List Installable × List Installable) :
    (c.copy_ok = true → fromInstallable c ∈ (grp.foldl copyStep acc).1) ∧
    (c.copy_ok = false → c ∈ (grp.foldl copyStep acc).2) := by
  constructor
  · intro hok
    refine foldl_estab
      (P := fun (a : List Installable × List Installable) =>
        fromInstallable c ∈ a.1)
      grp acc c hc ?_ ?_
    · intro a
      unfold copyStep
      rw [if_pos hok]
      exact List.mem_append_right _ (List.mem_singleton.mpr rfl)
    · intro a m _ hP
      unfold copyStep
      by_cases hm : m.copy_ok = true
      · rw [if_pos hm]; exact List.mem_append_left _ hP
      · rw [if_neg hm]; exact hP
  · intro hok
    refine foldl_estab
      (P := fun (a : List Installable × List Installable) => c ∈ a.2)
      grp acc c hc ?_ ?_
    · intro a
      unfold copyStep
      rw [hok]
      simp only [if_false, Bool.false_eq_true]
      exact List.mem_append_right _ (List.mem_singleton.mpr rfl)
    · intro a m _ hP
      unfold copyStep
      by_cases hm : m.copy_ok = true
      · rw [if_pos hm]; exact hP
      · rw [if_neg hm]; exact List.mem_append_left _ hP

theorem installCogsRepo_mem (repo : Repo) (rs : RefState)
    {by_commit : List (String × List Installable)} {cm : String}
    {grp : List Installable} (hgrp : (cm, grp) ∈ by_commit)
    {c : Installable} (hc : c ∈ grp) :
    (c.copy_ok = true →
      fromInstallable c ∈ (installCogsRepo repo rs by_commit).2.1) ∧
    (c.copy_ok = false → c ∈ (installCogsRepo repo rs by_commit).2.2) := by
  unfold installCogsRepo
  simp only []
  refine foldl_estab
    (P := fun (acc : RefState × List Installable × List Installable) =>
      (c.copy_ok = true → fromInstallable c ∈ acc.2.1) ∧
      (c.copy_ok = false → c ∈ acc.2.2))
    by_commit (rs, [], []) (cm, grp) hgrp ?_ ?_
  · intro acc
    exact ⟨fun h => (copyStep_fold_mem hc acc.2).1 h,
      fun h => (copyStep_fold_mem hc acc.2).2 h⟩
  · intro acc g _ hP
    exact ⟨fun h => (copyStep_fold_mono g.2 acc.2).1 _ (hP.1 h),
      fun h => (copyStep_fold_mono g.2 acc.2).2 _ (hP.2 h)⟩

theorem installCogsGroups_spec (rm : List Repo) :
    ∀ (groups : List (String × List (String × List Installable))) (rs : RefState),
      (∀ p ∈ groups, (findRepo rm p.1).isSome = true) →
      ∃ rs' inst fail,
        installCogsGroups rm rs groups = some (rs', inst, fail) ∧
        (∀ r', findRepo rm r'.name = some r' →
          r'.currentCommit rs' = r'.currentCommit rs) ∧
        (∀ p ∈ groups, ∀ q ∈ p.2, ∀ c ∈ q.2,
          (c.copy_ok = true → fromInstallable c ∈ inst) ∧
          (c.copy_ok = false → c ∈ fail))
  | [], rs, _ => ⟨rs, [], [], rfl, fun _ _ => rfl, by simp⟩
  | (rn, by_commit) :: rest, rs, h => by
    have hsome := h (rn, by_commit) (List.mem_cons_self _ _)
    rw [Option.isSome_iff_exists] at hsome
    rcases hsome with ⟨repo, hrepo⟩
    rcases installCogsGroups_spec rm rest (installCogsRepo repo rs by_commit).1
        (fun p hp => h p (List.mem_cons_of_mem _ hp)) with
      ⟨rs', inst, fail, heq, hrefs, hmem⟩
    refine ⟨rs', (installCogsRepo repo rs by_commit).2.1 ++ inst,
      (installCogsRepo repo rs by_commit).2.2 ++ fail, ?_, ?_, ?_⟩
    · unfold installCogsGroups
      simp only [hrepo]
      rw [heq]
    · intro r' hr'
      rw [hrefs r' hr']
      by_cases hname : r'.name = repo.name
      · have hreq : r' = repo := by
          have h1 := findRepo_self hrepo
          rw [(findRepo_eq_some hrepo).2] at hname
          rw [hname] at hr'
          rw [hr'] at hrepo
          exact Option.some.inj hrepo
        subst hreq
        unfold Repo.currentCommit
        rw [(installCogsRepo_refs r' rs by_commit).2]
        rfl
      · unfold Repo.currentCommit
        rw [(installCogsRepo_refs repo rs by_commit).1 r'.name hname]
    · intro p hp q hq c hc
      rcases List.mem_cons.mp hp with he | he
      · have hbc : p.2 = by_commit := congrArg Prod.snd he
        rw [hbc] at hq
        refine ⟨fun hok => List.mem_append_left _
            ((installCogsRepo_mem repo rs hq hc).1 hok),
          fun hok => List.mem_append_left _
            ((installCogsRepo_mem repo rs hq hc).2 hok)⟩
      · refine ⟨fun hok => List.mem_append_right _
            ((hmem p he q hq c hc).1 hok),
          fun hok => List.mem_append_right _
            ((hmem p he q hq c hc).2 hok)⟩

theorem mem_dedupStr_of_mem {l : List String} {a : String} (h : a ∈ l) :
    a ∈ dedupStr l := by
  unfold dedupStr
  refine foldl_estab (P := fun (acc : List String) => a ∈ acc) l [] a h ?_ ?_
  · intro acc
    by_cases hc : acc.contains a = true
    · rw [if_pos hc]; exact contains_mem.mp hc
    · rw [if_neg hc]
      exact List.mem_append_right _ (List.mem_singleton.mpr rfl)
  · intro acc s _ hP
    by_cases hc : acc.contains s = true
    · rw [if_pos hc]; exact hP
    · rw [if_neg hc]; exact List.mem_append_left _ hP

theorem mem_of_mem_dedupStr {l : List String} {a : String}
    (h : a ∈ dedupStr l) : a ∈ l := by
  revert h
  unfold dedupStr
  refine foldl_inv (P := fun (acc : List String) => a ∈ acc → a ∈ l) l []
    (by simp) ?_
  intro acc s hs hP hmem
  revert hmem
  by_cases hc : acc.contains s = true
  · rw [if_pos hc]; exact hP
  · rw [if_neg hc]
    intro hmem
    rcases List.mem_append.mp hmem with hmem | hmem
    · exact hP hmem
    · rw [List.mem_singleton.mp hmem]; exact hs

/-- Membership of a cog in its own (repo, commit) group of the
`_install_cogs` grouping. -/
theorem groupCogs_self_mem {cogs : List Installable} {c : Installable}
    (hc : c ∈ cogs) :
    ∃ bc, (c.repo_name, bc) ∈ groupCogs cogs ∧
      ∃ grp, (c.commit, grp) ∈ bc ∧ c ∈ grp := by
  unfold groupCogs
  have h1 : c.repo_name ∈ dedupStr (cogs.map (fun c => c.repo_name)) :=
    mem_dedupStr_of_mem (List.mem_map_of_mem _ hc)
  refine ⟨_, List.mem_map_of_mem _ h1, ?_⟩
  have hfil : c ∈ cogs.filter (fun x => x.repo_name == c.repo_name) :=
    List.mem_filter.mpr ⟨hc, by simp⟩
  have h2 : c.commit ∈ dedupStr ((cogs.filter
      (fun x => x.repo_name == c.repo_name)).map (fun x => x.commit)) :=
    mem_dedupStr_of_mem (List.mem_map_of_mem _ hfil)
  refine ⟨_, List.mem_map_of_mem _ h2, ?_⟩
  exact List.mem_filter.mpr ⟨hfil, by simp⟩

/-- Every group key of `groupCogs` is some cog's repo name. -/
theorem groupCogs_keys {cogs : List Installable} :
    ∀ p ∈ groupCogs cogs, ∃ c ∈ cogs, p.1 = c.repo_name := by
  intro p hp
  unfold groupCogs at hp
  rcases List.mem_map.mp hp with ⟨rn, hrn, hpe⟩
  have := mem_of_mem_dedupStr hrn
  rcases List.mem_map.mp this with ⟨c, hc, hce⟩
  exact ⟨c, hc, by rw [← hpe, ← hce]⟩

/-- C4: `_install_cogs` is module-atomic and best-effort per
(repository, commit) group: when module A's copy fails and module B's
succeeds in the same group, B appears in the returned installed records
and A in the returned failed set, and after the call every resolvable
repository's checked-out ref equals the commit it had before the call. -/
theorem installCogs_atomic (rm : List Repo) (rs : RefState)
    (cogs : List Installable) (A B : Installable)
    (hres : ∀ c ∈ cogs, (findRepo rm c.repo_name).isSome = true)
    (hA : A ∈ cogs) (hB : B ∈ cogs)
    (hrn : A.repo_name = B.repo_name) (hcm : A.commit = B.commit)
    (hAfail : A.copy_ok = false) (hBok : B.copy_ok = true) :
    ∃ rs' inst fail,
      installCogs rm rs cogs = some (rs', inst, fail) ∧
      fromInstallable B ∈ inst ∧ A ∈ fail ∧
      ∀ r', findRepo rm r'.name = some r' →
        r'.currentCommit rs' = r'.currentCommit rs := by
  have hgroups : ∀ p ∈ groupCogs cogs, (findRepo rm p.1).isSome = true := by
    intro p hp
    rcases groupCogs_keys p hp with ⟨c, hc, hpe⟩
    rw [hpe]
    exact hres c hc
  rcases installCogsGroups_spec rm (groupCogs cogs) rs hgroups with
    ⟨rs', inst, fail, heq, hrefs, hmem⟩
  refine ⟨rs', inst, fail, heq, ?_, ?_, hrefs⟩
  · rcases groupCogs_self_mem hB with ⟨bc, hbc, grp, hgrp, hBg⟩
    exact (hmem (B.repo_name, bc) hbc (B.commit, grp) hgrp B hBg).1 hBok
  · rcases groupCogs_self_mem hA with ⟨bc, hbc, grp, hgrp, hAg⟩
    exact (hmem (A.repo_name, bc) hbc (A.commit, grp) hgrp A hAg).2 hAfail

/-- Witness for C4: two cogs of demoRepoB at the same commit, one whose
copy fails and one whose copy succeeds. -/
theorem installCogs_atomic_witness :
    (∀ c ∈ [{ demoCogGood with copy_ok := false }, demoCogBadReq],
      (findRepo [demoRepoB] c.repo_name).isSome = true) ∧
    (∃ rs' inst fail,
      installCogs [demoRepoB] []
          [{ demoCogGood with copy_ok := false }, demoCogBadReq] =
        some (rs', inst, fail) ∧
      fromInstallable demoCogBadReq ∈ inst ∧
      { demoCogGood with copy_ok := false } ∈ fail ∧
      ∀ r', findRepo [demoRepoB] r'.name = some r' →
        r'.currentCommit rs' = r'.currentCommit []) :=
  ⟨by decide,
    installCogs_atomic [demoRepoB] []
      [{ demoCogGood with copy_ok := false }, demoCogBadReq]
      { demoCogGood with copy_ok := false } demoCogBadReq
      (by decide) (by simp) (by simp) rfl rfl rfl rfl⟩

/-! ### Claim C7 -/

/-- C7 counterexample: demoCogBadReq's requirement fails to install; the
sibling demoCogGood — no requirement of its own, working copy — is
nevertheless not installed: the whole update request returns with an
empty installed set and only the failed requirement reported. -/
theorem updateCogsAndLibs_req_failure_not_isolated :
    updateCogsAndLibs [demoRepoB] [] [demoCogBadReq, demoCogGood] =
      some ([], [], [], ["badreq"]) ∧
    demoCogGood.requirements = [] ∧ demoCogGood.copy_ok = true :=
  ⟨rfl, rfl, rfl⟩

/-- C7 (amended): a requirement-install failure aborts the whole update
request before any copy: when `_install_requirements` reports failed
requirements, `_update_cogs_and_libs` returns them with no module
installed, no module attempted (empty failed-copy set) and the refs
untouched; only when every requirement installs does the request
proceed, delegating to `_install_cogs` (whose per-module copy isolation
is the subject of C4). -/
theorem updateCogsAndLibs_req_gate (rm : List Repo) (rs : RefState)
    (cogs : List Installable) (rs' : RefState)
    (inst fail : List Installable) (fr : List String)
    (h : updateCogsAndLibs rm rs cogs = some (rs', inst, fail, fr)) :
    (fr ≠ [] → rs' = rs ∧ inst = [] ∧ fail = []) ∧
    (fr = [] → installCogs rm rs cogs = some (rs', inst, fail)) := by
  unfold updateCogsAndLibs at h
  cases hir : installRequirements rm cogs with
  | none => rw [hir] at h; cases h
  | some p =>
    rw [hir] at h
    rcases p with ⟨failed_reqs, attempts⟩
    simp only [] at h
    by_cases hne : (!failed_reqs.isEmpty) = true
    · rw [if_pos hne] at h
      obtain ⟨h1, h2, h3, h4⟩ :
          rs = rs' ∧ ([] : List Installable) = inst ∧
            ([] : List Installable) = fail ∧ failed_reqs = fr := by
        simpa using Option.some.inj h
      constructor
      · exact fun _ => ⟨h1.symm, h2.symm, h3.symm⟩
      · intro hfr
        exfalso
        rw [hfr] at h4
        rw [h4] at hne
        simp at hne
    · rw [if_neg hne] at h
      cases hic : installCogs rm rs cogs with
      | none => rw [hic] at h; cases h
      | some q =>
        rw [hic] at h
        rcases q with ⟨a, b, c⟩
        obtain ⟨h1, h2, h3, h4⟩ :
            a = rs' ∧ b = inst ∧ c = fail ∧ ([] : List String) = fr := by
          simpa using Option.some.inj h
        constructor
        · intro hfr
          exact absurd h4.symm hfr
        · intro _
          rw [h1, h2, h3]

/-- Witness for C7's amended claim: with the failed requirement badreq
reported, the returned installed and failed-copy sets are empty and the
refs are unchanged. -/
theorem updateCogsAndLibs_req_gate_witness :
    updateCogsAndLibs [demoRepoB] [] [demoCogBadReq, demoCogGood] =
      some ([], [], [], ["badreq"]) ∧
    ((["badreq"] : List String) ≠ [] ∧
      (([] : RefState) = [] ∧ ([] : List Installable) = [] ∧
        ([] : List Installable) = [])) :=
  ⟨rfl, by simp,
    (updateCogsAndLibs_req_gate [demoRepoB] []
      [demoCogBadReq, demoCogGood] [] [] [] ["badreq"] rfl).1 (by simp)⟩

/-! ### Claim C1 -/

theorem key_ne_of_itype {x m : Installable} (h : x.itype ≠ m.itype) :
    x.key ≠ m.key := by
  intro hk
  exact h (congrArg (fun t => t.2.2) hk)

/-- C1: an installed record passed to the update resolver whose recorded
commit equals its repository's current commit is returned in neither the
cogs-to-update set nor the libraries-to-update set.  The hypotheses are
the caller's invariants: the checked records are cogs, the fetched
library records are shared libraries, the persisted store never holds
two records with the same (repo name, module name, kind) key, available
libraries are published as shared libraries, the name-history lookup
answers with an occurrence of the queried module of the queried repo,
and a git repository's current commit is a non-empty hash. -/
theorem availableUpdates_current_skipped (rm : List Repo)
    (cogs libs : List Installable) (m : Installable) (r : Repo)
    (hcog : ∀ c ∈ cogs, c.itype = InstallableType.COG)
    (hlib : ∀ l ∈ libs, l.itype = InstallableType.SHARED_LIBRARY)
    (hnodup : ((cogs ++ libs).map Installable.key).Nodup)
    (havail : ∀ r' ∈ rm, ∀ lib ∈ r'.available_libraries,
      lib.itype = InstallableType.SHARED_LIBRARY)
    (hlast : ∀ r' ∈ rm, ∀ n x, r'.get_last_module_occurrence n = some x →
      x.repo_name = r'.name ∧ x.name = n)
    (hm : m ∈ cogs) (hr : findRepo rm m.repo_name = some r)
    (hc : m.commit = r.commit) (hne : r.commit ≠ "") :
    (∀ x ∈ (availableUpdates rm cogs libs).cogs_to_update, x.key ≠ m.key) ∧
    (∀ x ∈ (availableUpdates rm cogs libs).libraries_to_update,
      x.key ≠ m.key) := by
  have hav : availableUpdates rm cogs libs =
      diffPhase
        (cogsPhase rm cogs ((libsPhase (resolveRepos rm cogs) libs).1, [])).2
        (libsPhase (resolveRepos rm cogs) libs).2
        (buildHashes rm
          (cogsPhase rm cogs
            ((libsPhase (resolveRepos rm cogs) libs).1, [])).1) := rfl
  have hinj := List.inj_on_of_nodup_map hnodup
  have hmty : m.itype = InstallableType.COG := hcog m hm
  -- no module carrying m's key is ever grouped for diffing
  have hkeyms : ∀ g ∈ buildHashes rm
      (cogsPhase rm cogs ((libsPhase (resolveRepos rm cogs) libs).1, [])).1,
      ∀ x ∈ g.mods, x.key ≠ m.key := by
    intro g hg x hx hk
    rcases buildHashes_wf rm _ g hg with ⟨hw1, hw2, -, hw4⟩
    rcases hw4 x hx with ⟨hms, -, hxr, hnc, -⟩
    rcases (cogsPhase_mem rm cogs
        ((libsPhase (resolveRepos rm cogs) libs).1, [])).1 x hms with h | h
    · have hxl : x ∈ libs := (libsPhase_mem (resolveRepos rm cogs) libs).1 x h
      have : x.itype = InstallableType.SHARED_LIBRARY := hlib x hxl
      exact key_ne_of_itype (by rw [this, hmty]; intro hh; cases hh) hk
    · have hxx : x = m := hinj (List.mem_append_left _ h.1)
        (List.mem_append_left _ hm) hk
      subst hxx
      rw [← hxr] at hw2
      rw [hr] at hw2
      have : g.repo = r := (Option.some.inj hw2).symm
      rw [this] at hnc
      exact hnc hc.symm
  -- elements reached through a back-compat name lookup never carry m's key
  have hback : ∀ x ∈ (cogsPhase rm cogs
      ((libsPhase (resolveRepos rm cogs) libs).1, [])).2, x.key ≠ m.key := by
    intro x hx hk
    rcases (cogsPhase_mem rm cogs
        ((libsPhase (resolveRepos rm cogs) libs).1, [])).2 x hx with h | h
    · simp at h
    · rcases h with ⟨c, hcm', r', hfr', hcem, hlast', -⟩
      rcases hlast r' (findRepo_eq_some hfr').1 c.name x hlast' with ⟨hxr, hxn⟩
      have hrn : r'.name = c.repo_name := (findRepo_eq_some hfr').2
      have h1 : c.repo_name = m.repo_name := by
        rw [← hrn, ← hxr]; exact congrArg (fun t => t.1) hk
      have h2 : c.name = m.name := by
        rw [← hxn]; exact congrArg (fun t => t.2.1) hk
      have hck : c.key = m.key := by
        unfold Installable.key
        rw [h1, h2, hcog c hcm', hmty]
      have : c = m := hinj (List.mem_append_left _ hcm')
        (List.mem_append_left _ hm) hck
      rw [this] at hcem
      rw [hc] at hcem
      exact hne hcem
  constructor
  · intro x hx
    rw [hav] at hx
    rcases (diffPhase_mem _ _ _).1 x hx with h | ⟨g, hg, mm, hmm, hfs, -, -⟩
    · exact hback x h
    · have := (findSame_eq_some hfs).2
      rw [sameModule_iff_key] at this
      rw [this]
      exact hkeyms g hg mm hmm
  · intro x hx
    rw [hav] at hx
    rcases (diffPhase_mem _ _ _).2.1 x hx with h | ⟨g, hg, mm, hmm, hfs, -⟩
    · rcases (libsPhase_mem (resolveRepos rm cogs) libs).2 x h with
        ⟨r', hr', hxa, -⟩
      have : x.itype = InstallableType.SHARED_LIBRARY :=
        havail r' (resolveRepos_subset r' hr') x hxa
      exact key_ne_of_itype (by rw [this, hmty]; intro hh; cases hh)
    · have := (findSame_eq_some hfs).2
      rw [sameModule_iff_key] at this
      rw [this]
      exact hkeyms g hg mm hmm

/-- Witness for C1: demoCog is recorded at demoRepoA's current commit
c2 and appears in neither returned set. -/
theorem availableUpdates_current_skipped_witness :
    (∀ c ∈ [demoCog], c.itype = InstallableType.COG) ∧
    (∀ l ∈ [demoLib], l.itype = InstallableType.SHARED_LIBRARY) ∧
    ((([demoCog] ++ [demoLib]).map Installable.key).Nodup) ∧
    (∀ r' ∈ [demoRepoA], ∀ lib ∈ r'.available_libraries,
      lib.itype = InstallableType.SHARED_LIBRARY) ∧
    (∀ r' ∈ [demoRepoA], ∀ n x,
      r'.get_last_module_occurrence n = some x →
        x.repo_name = r'.name ∧ x.name = n) ∧
    demoCog.commit = demoRepoA.commit ∧ demoRepoA.commit ≠ "" ∧
    ((∀ x ∈ (availableUpdates [demoRepoA] [demoCog]
        [demoLib]).cogs_to_update, x.key ≠ demoCog.key) ∧
      (∀ x ∈ (availableUpdates [demoRepoA] [demoCog]
        [demoLib]).libraries_to_update, x.key ≠ demoCog.key)) :=
  ⟨by decide, by decide, by decide, by decide,
    fun r' hr' n x h => by
      rw [List.mem_singleton.mp hr'] at h
      exact Option.noConfusion h,
    rfl, by decide,
    availableUpdates_current_skipped [demoRepoA] [demoCog] [demoLib]
      demoCog demoRepoA (by decide) (by decide) (by decide) (by decide)
      (fun r' hr' n x h => by
        rw [List.mem_singleton.mp hr'] at h
        exact Option.noConfusion h)
      (List.mem_singleton.mpr rfl) rfl rfl (by decide)⟩

/-! ### Claim C3 -/

theorem ffwd_sameModule_left (uc : List Installable) (y x : Installable) :
    (ffwd uc y).sameModule x = y.sameModule x := by
  unfold ffwd
  cases findSame uc y with
  | none => rfl
  | some u => rfl

theorem diffStep_uc_mono (g : HashGroup) (a : ResolveResult) (x : Installable)
    {v : Installable} (hv : v ∈ a.update_commits) :
    v ∈ (diffStep g a x).update_commits := by
  unfold diffStep
  cases findSame g.modified x with
  | none => exact List.mem_append_left _ hv
  | some mm =>
    simp only []
    by_cases h1 : (mm.itype == InstallableType.COG) = true
    · rw [if_pos h1]
      by_cases h2 : (!mm.disabled) = true
      · rw [if_pos h2]; exact hv
      · rw [if_neg h2]; exact hv
    · rw [if_neg h1]
      by_cases h3 : (mm.itype == InstallableType.SHARED_LIBRARY) = true
      · rw [if_pos h3]; exact hv
      · rw [if_neg h3]; exact hv

theorem diffPhase_uc_mem (ctu ltu : List Installable) (hs : List HashGroup)
    {g : HashGroup} (hg : g ∈ hs) {c : Installable} (hc : c ∈ g.mods)
    (hfs : findSame g.modified c = none) :
    { c with commit := g.repo.commit } ∈
      (diffPhase ctu ltu hs).update_commits := by
  unfold diffPhase
  refine foldl_estab
    (P := fun (acc : ResolveResult) =>
      { c with commit := g.repo.commit } ∈ acc.update_commits)
    hs ⟨ctu, ltu, [], []⟩ g hg ?_ ?_
  · intro acc
    show { c with commit := g.repo.commit } ∈
      (g.mods.foldl (diffStep g) acc).update_commits
    refine foldl_estab
      (P := fun (a : ResolveResult) =>
        { c with commit := g.repo.commit } ∈ a.update_commits)
      g.mods acc c hc ?_ ?_
    · intro a
      unfold diffStep
      simp only [hfs]
      exact List.mem_append_right _ (List.mem_singleton.mpr rfl)
    · intro a x _ hP
      exact diffStep_uc_mono g a x hP
  · intro acc g2 _ hP
    show { c with commit := g.repo.commit } ∈
      (g2.mods.foldl (diffStep g2) acc).update_commits
    exact foldl_inv
      (P := fun (a : ResolveResult) =>
        { c with commit := g.repo.commit } ∈ a.update_commits)
      g2.mods acc hP (fun a x _ hP' => diffStep_uc_mono g2 a x hP')

theorem addToHashes_mem (hs : List HashGroup) (r : Repo) (old : String)
    (m : Installable) :
    ∃ g ∈ addToHashes hs r old m, ∃ c' ∈ g.mods, c'.sameModule m = true := by
  unfold addToHashes
  by_cases hc : (hs.any fun g =>
      g.repo_name == r.name && g.old_commit == old) = true
  · rw [if_pos hc]
    rcases List.any_eq_true.mp hc with ⟨g0, hg0, hkey⟩
    refine ⟨_, List.mem_map_of_mem _ hg0, ?_⟩
    rw [if_pos hkey]
    exact insertModule_same g0.mods m
  · rw [if_neg hc]
    exact ⟨⟨r.name, old, r, [m]⟩,
      List.mem_append_right _ (List.mem_singleton.mpr rfl),
      m, List.mem_singleton.mpr rfl, sameModule_refl m⟩

theorem addToHashes_pres (hs : List HashGroup) (r : Repo) (old : String)
    (m : Installable) {g : HashGroup} (hg : g ∈ hs) {c' : Installable}
    (hc' : c' ∈ g.mods) :
    ∃ g2 ∈ addToHashes hs r old m, c' ∈ g2.mods := by
  unfold addToHashes
  by_cases hcnd : (hs.any fun g =>
      g.repo_name == r.name && g.old_commit == old) = true
  · rw [if_pos hcnd]
    refine ⟨_, List.mem_map_of_mem _ hg, ?_⟩
    by_cases hk : (g.repo_name == r.name && g.old_commit == old) = true
    · rw [if_pos hk]
      exact insertModule_mem hc' m
    · rw [if_neg hk]
      exact hc'
  · rw [if_neg hcnd]
    exact ⟨g, List.mem_append_left _ hg, hc'⟩

theorem buildHashes_mem (rm : List Repo) (ms : List Installable)
    {c : Installable} (hc : c ∈ ms) {rr : Repo}
    (hfr : findRepo rm c.repo_name = some rr) (hne : rr.commit ≠ c.commit)
    (hanc : rr.is_ancestor c.commit rr.commit = true) :
    ∃ g ∈ buildHashes rm ms, ∃ c' ∈ g.mods, c'.sameModule c = true := by
  unfold buildHashes
  refine foldl_estab
    (P := fun (hs : List HashGroup) =>
      ∃ g ∈ hs, ∃ c' ∈ g.mods, c'.sameModule c = true)
    ms [] c hc ?_ ?_
  · intro hs
    unfold hashStep
    simp only [hfr]
    rw [if_pos (by rw [Bool.and_eq_true]; exact ⟨by simpa using hne, hanc⟩)]
    exact addToHashes_mem hs rr c.commit c
  · intro hs x _ hP
    rcases hP with ⟨g, hg, c', hc', hsm⟩
    unfold hashStep
    cases findRepo rm x.repo_name with
    | none => exact ⟨g, hg, c', hc', hsm⟩
    | some r2 =>
      simp only []
      split
      · rcases addToHashes_pres hs r2 x.commit x hg hc' with ⟨g2, hg2, hc2⟩
        exact ⟨g2, hg2, c', hc2, hsm⟩
      · exact ⟨g, hg, c', hc', hsm⟩

theorem cogsPhase_ms_mem (rm : List Repo) (cogs : List Installable)
    (acc : List Installable × List Installable) {c : Installable}
    (hc : c ∈ cogs) (hcm : c.commit ≠ "") {r' : Repo}
    (hfr : findRepo rm c.repo_name = some r') :
    ∃ c' ∈ (cogsPhase rm cogs acc).1, c'.sameModule c = true := by
  unfold cogsPhase
  refine foldl_estab
    (P := fun (a : List Installable × List Installable) =>
      ∃ c' ∈ a.1, c'.sameModule c = true)
    cogs acc c hc ?_ ?_
  · intro a
    unfold cogsStep
    simp only [hfr]
    rw [if_pos hcm]
    exact insertModule_same a.1 c
  · intro a x _ hP
    rcases hP with ⟨c', hc', hsm⟩
    unfold cogsStep
    cases findRepo rm x.repo_name with
    | none => exact ⟨c', hc', hsm⟩
    | some rr =>
      simp only []
      by_cases hx : x.commit ≠ ""
      · rw [if_pos hx]
        exact ⟨c', insertModule_mem hc' x, hsm⟩
      · rw [if_neg hx]
        cases rr.get_last_module_occurrence x.name with
        | none => exact ⟨c', hc', hsm⟩
        | some last =>
          simp only []
          by_cases hd : (!last.disabled) = true
          · rw [if_pos hd]
            exact ⟨c', hc', hsm⟩
          · rw [if_neg hd]
            exact ⟨c', hc', hsm⟩

theorem availableUpdates_empty_of_nomod (rm : List Repo)
    (cogs libs : List Installable)
    (hkc : ∀ c ∈ cogs, c.commit ≠ "")
    (hinst : ∀ r' ∈ rm, ∀ lib ∈ r'.available_libraries,
      ∃ y ∈ libs, y.sameModule lib = true)
    (hmiss : ∀ mm, (mm ∈ cogs ∨ mm ∈ libs) → ∀ rr,
      findRepo rm mm.repo_name = some rr → rr.commit ≠ mm.commit →
      findSame (rr.get_modified_modules mm.commit rr.commit) mm = none) :
    (availableUpdates rm cogs libs).cogs_to_update = [] ∧
    (availableUpdates rm cogs libs).libraries_to_update = [] := by
  have hav : availableUpdates rm cogs libs =
      diffPhase
        (cogsPhase rm cogs ((libsPhase (resolveRepos rm cogs) libs).1, [])).2
        (libsPhase (resolveRepos rm cogs) libs).2
        (buildHashes rm
          (cogsPhase rm cogs
            ((libsPhase (resolveRepos rm cogs) libs).1, [])).1) := rfl
  have hctu0 : ∀ x, x ∉ (cogsPhase rm cogs
      ((libsPhase (resolveRepos rm cogs) libs).1, [])).2 := by
    intro x hx
    rcases (cogsPhase_mem rm cogs
        ((libsPhase (resolveRepos rm cogs) libs).1, [])).2 x hx with
      h | ⟨c, hcm', r', -, hcem, -, -⟩
    · simp at h
    · exact hkc c hcm' hcem
  have hltu0 : ∀ x, x ∉ (libsPhase (resolveRepos rm cogs) libs).2 := by
    intro x hx
    rcases (libsPhase_mem (resolveRepos rm cogs) libs).2 x hx with
      ⟨r', hr', hxa, hfs⟩
    rcases hinst r' (resolveRepos_subset r' hr') x hxa with ⟨y, hy, hsm⟩
    exact (findSame_eq_none hfs y hy) hsm
  have hdiff : ∀ g ∈ buildHashes rm (cogsPhase rm cogs
      ((libsPhase (resolveRepos rm cogs) libs).1, [])).1,
      ∀ mm ∈ g.mods, ∀ y, findSame g.modified mm = some y → False := by
    intro g hg mm hmm y hfs
    rcases buildHashes_wf rm _ g hg with ⟨-, hw2, -, hw4⟩
    rcases hw4 mm hmm with ⟨hms, hcm, hxr, hnc, -⟩
    have hor : mm ∈ cogs ∨ mm ∈ libs := by
      rcases (cogsPhase_mem rm cogs
          ((libsPhase (resolveRepos rm cogs) libs).1, [])).1 mm hms with h | h
      · exact Or.inr ((libsPhase_mem (resolveRepos rm cogs) libs).1 mm h)
      · exact Or.inl h.1
    have hfr : findRepo rm mm.repo_name = some g.repo := by
      rw [hxr]; exact hw2
    have hnone := hmiss mm hor g.repo hfr hnc
    rw [hcm] at hnone
    unfold HashGroup.modified at hfs
    rw [hnone] at hfs
    cases hfs
  constructor
  · refine List.eq_nil_iff_forall_not_mem.mpr ?_
    intro x hx
    rw [hav] at hx
    rcases (diffPhase_mem _ _ _).1 x hx with h | ⟨g, hg, mm, hmm, hfs, -, -⟩
    · exact hctu0 x h
    · exact hdiff g hg mm hmm x hfs
  · refine List.eq_nil_iff_forall_not_mem.mpr ?_
    intro x hx
    rw [hav] at hx
    rcases (diffPhase_mem _ _ _).2.1 x hx with h | ⟨g, hg, mm, hmm, hfs, -⟩
    · exact hltu0 x h
    · exact hdiff g hg mm hmm x hfs

theorem availableUpdates_uc_commits (rm : List Repo)
    (cogs libs : List Installable) :
    ∀ u ∈ (availableUpdates rm cogs libs).update_commits,
      ∃ rr ∈ rm, findRepo rm u.repo_name = some rr ∧ u.commit = rr.commit := by
  have hav : availableUpdates rm cogs libs =
      diffPhase
        (cogsPhase rm cogs ((libsPhase (resolveRepos rm cogs) libs).1, [])).2
        (libsPhase (resolveRepos rm cogs) libs).2
        (buildHashes rm
          (cogsPhase rm cogs
            ((libsPhase (resolveRepos rm cogs) libs).1, [])).1) := rfl
  intro u hu
  rw [hav] at hu
  rcases (diffPhase_mem _ _ _).2.2 u hu with ⟨g, hg, mm, hmm, -, hue⟩
  rcases buildHashes_wf rm _ g hg with ⟨-, hw2, -, hw4⟩
  rcases hw4 mm hmm with ⟨-, -, hxr, -, -⟩
  subst hue
  refine ⟨g.repo, (findRepo_eq_some hw2).1, ?_, rfl⟩
  show findRepo rm mm.repo_name = some g.repo
  rw [hxr]; exact hw2

/-- C3: a known-commit record whose module is absent from its diff is
fast-forwarded — the record, stamped with the repository's current
commit, is queued for persistence — while nothing is returned to update;
and running the resolver again on the persisted records with no
repository change again returns empty update sets.  Hypotheses: every
checked record carries commit data, repositories' current commits are
non-empty, the persisted store holds no duplicate keys, every available
shared library is installed, and no diff between a record's commit and
its repository's current commit contains that record. -/
theorem availableUpdates_fastforward_idempotent (rm : List Repo)
    (cogs libs : List Installable)
    (hkc : ∀ c ∈ cogs, c.commit ≠ "")
    (hrc : ∀ r' ∈ rm, r'.commit ≠ "")
    (hnodup : ((cogs ++ libs).map Installable.key).Nodup)
    (hinst : ∀ r' ∈ rm, ∀ lib ∈ r'.available_libraries,
      ∃ y ∈ libs, y.sameModule lib = true)
    (hmiss : ∀ mm, (mm ∈ cogs ∨ mm ∈ libs) → ∀ rr,
      findRepo rm mm.repo_name = some rr → rr.commit ≠ mm.commit →
      findSame (rr.get_modified_modules mm.commit rr.commit) mm = none) :
    (availableUpdates rm cogs libs).cogs_to_update = [] ∧
    (availableUpdates rm cogs libs).libraries_to_update = [] ∧
    (∀ c ∈ cogs, ∀ rr, findRepo rm c.repo_name = some rr →
      rr.commit ≠ c.commit → rr.is_ancestor c.commit rr.commit = true →
      { c with commit := rr.commit } ∈
        (availableUpdates rm cogs libs).update_commits) ∧
    (availableUpdates rm
        (cogs.map (ffwd (availableUpdates rm cogs libs).update_commits))
        (libs.map (ffwd (availableUpdates rm cogs libs).update_commits))
      ).cogs_to_update = [] ∧
    (availableUpdates rm
        (cogs.map (ffwd (availableUpdates rm cogs libs).update_commits))
        (libs.map (ffwd (availableUpdates rm cogs libs).update_commits))
      ).libraries_to_update = [] := by
  have hav : availableUpdates rm cogs libs =
      diffPhase
        (cogsPhase rm cogs ((libsPhase (resolveRepos rm cogs) libs).1, [])).2
        (libsPhase (resolveRepos rm cogs) libs).2
        (buildHashes rm
          (cogsPhase rm cogs
            ((libsPhase (resolveRepos rm cogs) libs).1, [])).1) := rfl
  have hinj := List.inj_on_of_nodup_map hnodup
  have hemp := availableUpdates_empty_of_nomod rm cogs libs hkc hinst hmiss
  have hmsor : ∀ x ∈ (cogsPhase rm cogs
      ((libsPhase (resolveRepos rm cogs) libs).1, [])).1,
      x ∈ cogs ++ libs := by
    intro x hx
    rcases (cogsPhase_mem rm cogs
        ((libsPhase (resolveRepos rm cogs) libs).1, [])).1 x hx with h | h
    · exact List.mem_append_right _
        ((libsPhase_mem (resolveRepos rm cogs) libs).1 x h)
    · exact List.mem_append_left _ h.1
  refine ⟨hemp.1, hemp.2, ?_, ?_⟩
  · intro c hcin rr hfr hne hanc
    rcases cogsPhase_ms_mem rm cogs
        ((libsPhase (resolveRepos rm cogs) libs).1, []) hcin
        (hkc c hcin) hfr with ⟨c', hc', hsm⟩
    have hcc : c' = c := hinj (hmsor c' hc') (List.mem_append_left _ hcin)
      (sameModule_iff_key.mp hsm)
    rw [hcc] at hc'
    rcases buildHashes_mem rm _ hc' hfr hne hanc with ⟨g, hg, c'', hc'', hsm2⟩
    rcases buildHashes_wf rm _ g hg with ⟨-, hw2, -, hw4⟩
    have hc2 : c'' = c := hinj (hmsor c'' (hw4 c'' hc'').1)
      (List.mem_append_left _ hcin) (sameModule_iff_key.mp hsm2)
    rw [hc2] at hc''
    rcases hw4 c hc'' with ⟨-, hcm, hxr, -, -⟩
    have hgr : g.repo = rr := by
      rw [← hxr] at hw2
      rw [hfr] at hw2
      exact (Option.some.inj hw2).symm
    have hfs : findSame g.modified c = none := by
      unfold HashGroup.modified
      rw [← hcm, hgr]
      exact hmiss c (Or.inl hcin) rr hfr hne
    have hmem := diffPhase_uc_mem
      (cogsPhase rm cogs ((libsPhase (resolveRepos rm cogs) libs).1, [])).2
      (libsPhase (resolveRepos rm cogs) libs).2 _ hg hc'' hfs
    rw [hgr] at hmem
    rw [hav]
    exact hmem
  · have huc := availableUpdates_uc_commits rm cogs libs
    set uc := (availableUpdates rm cogs libs).update_commits with huceq
    refine availableUpdates_empty_of_nomod rm _ _ ?_ ?_ ?_
    · intro c2 hc2
      rcases List.mem_map.mp hc2 with ⟨c, hc, hce⟩
      subst hce
      unfold ffwd
      cases hfsu : findSame uc c with
      | none => exact hkc c hc
      | some u =>
        rcases huc u (findSame_eq_some hfsu).1 with ⟨rr, hrr, -, hcu⟩
        rw [hcu]
        exact hrc rr hrr
    · intro r' hr' lib hla
      rcases hinst r' hr' lib hla with ⟨y, hy, hsm⟩
      exact ⟨ffwd uc y, List.mem_map_of_mem _ hy,
        by rw [ffwd_sameModule_left]; exact hsm⟩
    · intro mm2 hor2 rr hfr2 hne2
      have hor : ∃ mm, (mm ∈ cogs ∨ mm ∈ libs) ∧ mm2 = ffwd uc mm := by
        rcases hor2 with h | h
        · rcases List.mem_map.mp h with ⟨mm, hmm, hme⟩
          exact ⟨mm, Or.inl hmm, hme.symm⟩
        · rcases List.mem_map.mp h with ⟨mm, hmm, hme⟩
          exact ⟨mm, Or.inr hmm, hme.symm⟩
      rcases hor with ⟨mm, hmmor, hme⟩
      revert hfr2 hne2
      rw [hme]
      unfold ffwd
      cases hfsu : findSame uc mm with
      | none =>
        intro hfr2 hne2
        exact hmiss mm hmmor rr hfr2 hne2
      | some u =>
        intro hfr2 hne2
        exfalso
        rcases huc u (findSame_eq_some hfsu).1 with ⟨rr', hrr', hfru, hcu⟩
        have hun : u.repo_name = mm.repo_name :=
          (sameModule_eq (findSame_eq_some hfsu).2).1
        rw [hun] at hfru
        rw [hfr2] at hfru
        have : rr = rr' := Option.some.inj hfru
        apply hne2
        rw [← this] at hcu
        exact hcu.symm

/-- Witness for C3: a repository at commit c2 with all-empty diffs and
one installed cog recorded at commit c1; the resolver fast-forwards the
record and returns empty update sets, again on a second run over the
persisted records. -/
theorem availableUpdates_fastforward_idempotent_witness :
    (∀ c ∈ [demoCogC], c.commit ≠ "") ∧
    (∀ r' ∈ [demoRepoC], r'.commit ≠ "") ∧
    ((([demoCogC] ++ ([] : List Installable)).map Installable.key).Nodup) ∧
    ((availableUpdates [demoRepoC] [demoCogC] []).cogs_to_update = [] ∧
      (availableUpdates [demoRepoC] [demoCogC] []).libraries_to_update = [] ∧
      (∀ c ∈ [demoCogC], ∀ rr, findRepo [demoRepoC] c.repo_name = some rr →
        rr.commit ≠ c.commit → rr.is_ancestor c.commit rr.commit = true →
        { c with commit := rr.commit } ∈
          (availableUpdates [demoRepoC] [demoCogC] []).update_commits) ∧
      (availableUpdates [demoRepoC]
          ([demoCogC].map
            (ffwd (availableUpdates [demoRepoC] [demoCogC] []).update_commits))
          (([] : List Installable).map
            (ffwd (availableUpdates [demoRepoC] [demoCogC] []).update_commits))
        ).cogs_to_update = [] ∧
      (availableUpdates [demoRepoC]
          ([demoCogC].map
            (ffwd (availableUpdates [demoRepoC] [demoCogC] []).update_commits))
          (([] : List Installable).map
            (ffwd (availableUpdates [demoRepoC] [demoCogC] []).update_commits))
        ).libraries_to_update = []) :=
  ⟨by decide, by decide, by decide,
    availableUpdates_fastforward_idempotent [demoRepoC] [demoCogC] []
      (by decide) (by decide) (by decide)
      (by
        intro r' hr' lib hla
        rw [List.mem_singleton.mp hr'] at hla
        simp [demoRepoC] at hla)
      (by
        intro mm _ rr' hfr' _
        have hrr' : rr' = demoRepoC :=
          List.mem_singleton.mp (findRepo_eq_some hfr').1
        subst hrr'
        rfl)⟩

end Downloader
